import Mathlib

/-!
Verification of the LBank exchange-integration core of the portfolio-doctor
API (Python sources `app/services/lbank_service.py` and
`app/services/portfolio_service.py`).

Modelling conventions:
* Python floats are modelled as rationals (`ℚ`); no claim under study hinges
  on binary floating-point rounding.
* Python strings are modelled as Lean `String`; `str.lower()/upper()/strip()`
  and string comparison are re-implemented over the character list so that
  concrete instances are kernel-computable (Lean's built-in `String.toLower`,
  `String.trim` and `String.decidableLT` do not reduce in the kernel).
* Dynamically typed payload fields are modelled by the `PyVal` type together
  with Python truthiness (`pyTruthy`), Python's `x or y` chains (`pyOr`) and
  `float(x)` conversion (`safeFloat` / `parseFloat?`).
* `async`/`await` plays no semantic role for the verified properties: each
  fetch is modelled by the value (or exception, via `Except`/`Option`) that
  the awaited call produced, and the wall clock is an explicit parameter.
-/

/- Batteries marks rational arithmetic `@[irreducible]`; re-enable unfolding
so that `decide` can evaluate the model on concrete inputs. -/
attribute [local semireducible] Rat.sub Rat.add Rat.mul Rat.inv

/-- Model of Python `str.lower()` (ASCII case folding, as `Char.toLower`). -/
def toLowerStr (s : String) : String := ⟨s.data.map Char.toLower⟩

/-- Model of Python `str.upper()` (ASCII case folding, as `Char.toUpper`). -/
def toUpperStr (s : String) : String := ⟨s.data.map Char.toUpper⟩

/-- Model of Python `str.strip()`: drop whitespace from both ends. -/
def trimStr (s : String) : String :=
  ⟨((s.data.dropWhile Char.isWhitespace).reverse.dropWhile Char.isWhitespace).reverse⟩

/-- Lexicographic `≤` on character lists; this is exactly Python's string
comparison (code-point lexicographic). -/
def charsLe : List Char → List Char → Bool
  | [], _ => true
  | _ :: _, [] => false
  | a :: as, b :: bs => if a = b then charsLe as bs else decide (a < b)

/-- Model of Python `s <= t` on strings. -/
def strLeB (a b : String) : Bool := charsLe a.data b.data

/-- A Python float: a finite rational, `nan`, `inf` or `-inf`.  (Finite
doubles are modelled exactly as rationals; no claim under study hinges on
binary rounding, but the special values carry real comparison semantics that
the claims do observe.) -/
inductive PyFloat where
  | num (q : ℚ)
  | nan
  | inf
  | ninf
deriving DecidableEq, Repr

/-- Python `<` on floats: `nan` compares false with everything. -/
def PyFloat.ltB : PyFloat → PyFloat → Bool
  | .num a, .num b => decide (a < b)
  | .num _, .inf => true
  | .ninf, .num _ => true
  | .ninf, .inf => true
  | _, _ => false

/-- Python `<=` on floats: `nan` compares false with everything. -/
def PyFloat.leB : PyFloat → PyFloat → Bool
  | .num a, .num b => decide (a ≤ b)
  | .num _, .inf => true
  | .ninf, .num _ => true
  | .ninf, .inf => true
  | .inf, .inf => true
  | .ninf, .ninf => true
  | _, _ => false

/-- `x > 0` in Python: false for `nan` and `-inf`, true for `inf`. -/
def pyPos (f : PyFloat) : Bool := PyFloat.ltB (.num 0) f

/-- Is the float finite (neither `nan` nor infinite)? -/
def PyFloat.isFinite : PyFloat → Bool
  | .num _ => true
  | _ => false

/-- IEEE addition on the model. -/
def PyFloat.add : PyFloat → PyFloat → PyFloat
  | .num a, .num b => .num (a + b)
  | .nan, _ => .nan
  | _, .nan => .nan
  | .inf, .ninf => .nan
  | .ninf, .inf => .nan
  | .inf, _ => .inf
  | _, .inf => .inf
  | .ninf, _ => .ninf
  | _, .ninf => .ninf

/-- IEEE negation on the model. -/
def PyFloat.neg : PyFloat → PyFloat
  | .num a => .num (-a)
  | .nan => .nan
  | .inf => .ninf
  | .ninf => .inf

/-- IEEE subtraction on the model. -/
def PyFloat.sub (a b : PyFloat) : PyFloat := a.add b.neg

/-- IEEE multiplication on the model (`0 * inf = nan`). -/
def PyFloat.mul : PyFloat → PyFloat → PyFloat
  | .num a, .num b => .num (a * b)
  | .nan, _ => .nan
  | _, .nan => .nan
  | .inf, .inf => .inf
  | .inf, .ninf => .ninf
  | .ninf, .inf => .ninf
  | .ninf, .ninf => .inf
  | .inf, .num b => if b = 0 then .nan else if 0 < b then .inf else .ninf
  | .num a, .inf => if a = 0 then .nan else if 0 < a then .inf else .ninf
  | .ninf, .num b => if b = 0 then .nan else if 0 < b then .ninf else .inf
  | .num a, .ninf => if a = 0 then .nan else if 0 < a then .ninf else .inf

/-- Python `max(a, b)`: keep `a` unless `b` compares greater
(`max(nan, x) = nan`, `max(x, nan) = x`). -/
def pyMax (a b : PyFloat) : PyFloat := if PyFloat.ltB a b then b else a

theorem PyFloat.add_comm_t (a b : PyFloat) : a.add b = b.add a := by
  cases a <;> cases b <;> simp [PyFloat.add, add_comm]

theorem PyFloat.add_assoc_t (a b c : PyFloat) : (a.add b).add c = a.add (b.add c) := by
  cases a <;> cases b <;> cases c <;> simp [PyFloat.add, add_assoc]

theorem PyFloat.zero_add_t (a : PyFloat) : (PyFloat.num 0).add a = a := by
  cases a <;> simp [PyFloat.add]

theorem PyFloat.add_zero_t (a : PyFloat) : a.add (.num 0) = a := by
  cases a <;> simp [PyFloat.add]

/-- In this idealised model (exact rationals, no rounding) IEEE addition is a
commutative monoid, which gives `List.sum` the meaning of Python `sum`:
a left fold of `+` starting from `0`. -/
instance : Zero PyFloat := ⟨.num 0⟩

instance : Add PyFloat := ⟨PyFloat.add⟩

instance : AddCommMonoid PyFloat where
  add := (· + ·)
  zero := 0
  add_assoc := PyFloat.add_assoc_t
  zero_add := PyFloat.zero_add_t
  add_zero := PyFloat.add_zero_t
  add_comm := PyFloat.add_comm_t
  nsmul := nsmulRec

theorem PyFloat.add_def (a b : PyFloat) : a + b = a.add b := rfl

theorem PyFloat.zero_def : (0 : PyFloat) = .num 0 := rfl

theorem pyPos_zero : pyPos (0 : PyFloat) = false := by decide

/-- A dynamically-typed scalar payload value, as delivered by `res.json()`
(Python's `json` accepts the literals `NaN`/`Infinity`, so a numeric field
is a full `PyFloat`). -/
inductive PyVal where
  | none
  | num (f : PyFloat)
  | str (s : String)
deriving DecidableEq, Repr

/-- Python truthiness for scalar values: `None`, `0.0` and `""` are falsy;
`nan` and the infinities are truthy. -/
def pyTruthy : PyVal → Bool
  | .none => false
  | .num f => decide (f ≠ .num 0)
  | .str s => decide (s ≠ "")

/-- Python `a or b or ...` over optional dict lookups (`dict.get` returns
`None` for a missing key): the first truthy value wins, otherwise the value
of the last operand is returned. -/
def pyOr : List (Option PyVal) → PyVal
  | [] => .none
  | [x] => x.getD .none
  | x :: rest =>
      let v := x.getD .none
      if pyTruthy v then v else pyOr rest

/-- Digit test, Python `str.isdigit` restricted to ASCII decimal digits. -/
def isDigitB (c : Char) : Bool := decide ('0' ≤ c) && decide (c ≤ '9')

/-- Value of a decimal digit string. -/
def digitsVal (l : List Char) : ℕ := l.foldl (fun a c => a * 10 + (c.toNat - 48)) 0

/-- Parse an unsigned decimal mantissa (digits with an optional fractional
part: `"12"`, `"12."`, `".5"`, `"12.5"`). -/
def parseMantissa (l : List Char) : Option ℚ :=
  let intPart := l.takeWhile isDigitB
  let rest := l.dropWhile isDigitB
  match rest with
  | [] => if intPart.isEmpty then Option.none else some (digitsVal intPart)
  | '.' :: frac =>
      if frac.all isDigitB && !(intPart.isEmpty && frac.isEmpty) then
        some ((digitsVal intPart : ℚ) + (digitsVal frac : ℚ) / (10 ^ frac.length))
      else Option.none
  | _ => Option.none

/-- Parse the exponent part after `e`/`E`: optional sign, then digits. -/
def parseExpPart (l : List Char) : Option ℤ :=
  match l with
  | '+' :: ds => if !ds.isEmpty && ds.all isDigitB then some (digitsVal ds) else Option.none
  | '-' :: ds =>
      if !ds.isEmpty && ds.all isDigitB then some (-(digitsVal ds : ℤ)) else Option.none
  | ds => if !ds.isEmpty && ds.all isDigitB then some (digitsVal ds) else Option.none

/-- Scale a mantissa by a decimal exponent. -/
def applyExponent (q : ℚ) (e : ℤ) : ℚ :=
  if 0 ≤ e then q * 10 ^ e.toNat else q / 10 ^ (-e).toNat

/-- Parse an unsigned float literal: mantissa with an optional `e`/`E`
exponent (`"12.5"`, `"1e5"`, `"1.e-3"`, `".5E2"`). -/
def parseUnsigned (l : List Char) : Option ℚ :=
  let notExp : Char → Bool := fun c => !(c == 'e' || c == 'E')
  let mantissaPart := l.takeWhile notExp
  let expPart := l.dropWhile notExp
  match parseMantissa mantissaPart with
  | Option.none => Option.none
  | some m =>
      match expPart with
      | [] => some m
      | _ :: expChars => (parseExpPart expChars).map (applyExponent m)

/-- Model of Python `float(s)` on strings: optional surrounding whitespace,
optional sign, then a decimal literal with optional exponent or one of the
case-insensitive special literals `nan`/`inf`/`infinity`.  Returns `none`
where Python raises `ValueError`.  (Digit-group underscores are not
modelled.) -/
def parseFloat? (s : String) : Option PyFloat :=
  let core : List Char → Option PyFloat := fun l =>
    let lower := l.map Char.toLower
    if lower = "nan".data then some .nan
    else if lower = "inf".data ∨ lower = "infinity".data then some .inf
    else (parseUnsigned l).map .num
  match (trimStr s).data with
  | '+' :: rest => core rest
  | '-' :: rest => (core rest).map PyFloat.neg
  | l => core l

/-- `LBankService._safe_float`: `float(value)` with `None` on failure.
`_safe_float(None) = None`; numbers (including `nan` and the infinities)
convert to themselves. -/
def safeFloat : PyVal → Option PyFloat
  | .none => Option.none
  | .num f => some f
  | .str s => parseFloat? s

/-- Loose model of Python `str(v)` for a float (round-trips through
`float(str(v))`). -/
def pyStrF : PyFloat → String
  | .num q => toString q.num ++ (if q.den = 1 then "" else "/" ++ toString q.den)
  | .nan => "nan"
  | .inf => "inf"
  | .ninf => "-inf"

/-- Loose model of Python `str(v)` for scalar payload values (only the
string and missing cases are ever exercised by the claims below). -/
def pyStr : PyVal → String
  | .none => "None"
  | .num f => pyStrF f
  | .str s => s

/-! ## Price resolution (`LBankService._get_price_from_map`)

A price map is an association list from lowercase pair symbol to price,
looked up with `List.lookup` (Python dict lookup; keys are unique by
construction, see `parsePriceRows` below). -/

abbrev PriceMap := List (String × PyFloat)

/-- Positivity of a product under Python float comparison. -/
theorem pyPos_mul {a b : PyFloat} (ha : pyPos a = true) (hb : pyPos b = true) :
    pyPos (a.mul b) = true := by
  cases a with
  | num qa =>
      have ha2 : 0 < qa := by simpa [pyPos, PyFloat.ltB] using ha
      cases b with
      | num qb =>
          have hb2 : 0 < qb := by simpa [pyPos, PyFloat.ltB] using hb
          simp only [PyFloat.mul, pyPos, PyFloat.ltB, decide_eq_true_eq]
          exact mul_pos ha2 hb2
      | nan => exact absurd hb (by simp [pyPos, PyFloat.ltB])
      | inf =>
          simp only [PyFloat.mul]
          rw [if_neg (ne_of_gt ha2), if_pos ha2]
          rfl
      | ninf => exact absurd hb (by simp [pyPos, PyFloat.ltB])
  | nan => exact absurd ha (by simp [pyPos, PyFloat.ltB])
  | inf =>
      cases b with
      | num qb =>
          have hb2 : 0 < qb := by simpa [pyPos, PyFloat.ltB] using hb
          simp only [PyFloat.mul]
          rw [if_neg (ne_of_gt hb2), if_pos hb2]
          rfl
      | nan => exact absurd hb (by simp [pyPos, PyFloat.ltB])
      | inf => rfl
      | ninf => exact absurd hb (by simp [pyPos, PyFloat.ltB])
  | ninf => exact absurd ha (by simp [pyPos, PyFloat.ltB])

/-- With a positive second factor, the product is positive under Python
comparison exactly when the first factor is. -/
theorem pyPos_mul_iff {a b : PyFloat} (hb : pyPos b = true) :
    pyPos (a.mul b) = true ↔ pyPos a = true := by
  cases b with
  | num qb =>
      have hb2 : 0 < qb := by simpa [pyPos, PyFloat.ltB] using hb
      cases a with
      | num qa =>
          simp only [PyFloat.mul, pyPos, PyFloat.ltB, decide_eq_true_eq]
          constructor
          · intro h
            rcases mul_pos_iff.mp h with ⟨h1, _⟩ | ⟨_, h2⟩
            · exact h1
            · linarith
          · intro h; exact mul_pos h hb2
      | nan => simp [PyFloat.mul, pyPos, PyFloat.ltB]
      | inf =>
          simp only [PyFloat.mul]
          rw [if_neg (ne_of_gt hb2), if_pos hb2]
      | ninf =>
          simp only [PyFloat.mul]
          rw [if_neg (ne_of_gt hb2), if_pos hb2]
  | nan => exact absurd hb (by simp [pyPos, PyFloat.ltB])
  | inf =>
      cases a with
      | num qa =>
          simp only [PyFloat.mul]
          constructor
          · intro h
            by_cases h0 : qa = 0
            · rw [if_pos h0] at h; cases h
            · rw [if_neg h0] at h
              by_cases hp : 0 < qa
              · simpa [pyPos, PyFloat.ltB] using hp
              · rw [if_neg hp] at h; cases h
          · intro h
            have h2 : 0 < qa := by simpa [pyPos, PyFloat.ltB] using h
            rw [if_neg (ne_of_gt h2), if_pos h2]
            rfl
      | nan => simp [PyFloat.mul, pyPos, PyFloat.ltB]
      | inf => simp [PyFloat.mul, pyPos, PyFloat.ltB]
      | ninf => simp [PyFloat.mul, pyPos, PyFloat.ltB]
  | ninf => exact absurd hb (by simp [pyPos, PyFloat.ltB])

/-- `LBankService._get_price_from_map`, line for line:
stablecoin allow-list, then `{sym}_usdt`, then `{sym}_usd`, then
`{sym}_btc` × `btc_usdt` (the latter via `price_map.get('btc_usdt', 0)`),
each route taken only when its price is `> 0` under Python comparison
(which rejects `nan` but accepts `inf`); otherwise `None`. -/
def getPriceFromMap (symbol : String) (priceMap : PriceMap) : Option PyFloat :=
  let symbolUpper := toUpperStr symbol
  if symbolUpper = "USDT" ∨ symbolUpper = "USDC" ∨ symbolUpper = "TUSD" ∨
      symbolUpper = "USDD" then
    some (.num 1)
  else
    let symbolLower := toLowerStr symbol
    let usdtPair := symbolLower ++ "_usdt"
    match priceMap.lookup usdtPair with
    | some p =>
        if pyPos p then some p else getPriceFromMapUsd symbolLower priceMap
    | Option.none => getPriceFromMapUsd symbolLower priceMap
where
  /-- the `{sym}_usd` route and below. -/
  getPriceFromMapUsd (symbolLower : String) (priceMap : PriceMap) : Option PyFloat :=
    let usdPair := symbolLower ++ "_usd"
    match priceMap.lookup usdPair with
    | some p =>
        if pyPos p then some p else getPriceFromMapBtc symbolLower priceMap
    | Option.none => getPriceFromMapBtc symbolLower priceMap
  /-- the BTC-denominated route. -/
  getPriceFromMapBtc (symbolLower : String) (priceMap : PriceMap) : Option PyFloat :=
    let btcPair := symbolLower ++ "_btc"
    let btcUsdt := ((priceMap.lookup "btc_usdt").getD (.num 0))
    match priceMap.lookup btcPair with
    | some p =>
        if pyPos p ∧ pyPos btcUsdt then some (p.mul btcUsdt) else Option.none
    | Option.none => Option.none

/-- Spec §4.4: the fixed stablecoin allow-list. -/
def specStablecoins : List String := ["USDT", "USDC", "TUSD", "USDD"]

/-- Spec §4.4: the first of the candidate route prices that is positive;
"unresolved" (`none`) when no route exists with a positive price. -/
def firstPositiveRoute : List (Option PyFloat) → Option PyFloat
  | [] => Option.none
  | r :: rest =>
      match r with
      | some p => if pyPos p then some p else firstPositiveRoute rest
      | Option.none => firstPositiveRoute rest

/-- The §4.4 contract for `resolve_price`, written from the spec's words:
stablecoins (fixed allow-list) resolve to exactly 1.0; otherwise try
`{symbol}_usdt`, then `{symbol}_usd`, then the BTC-denominated route
(`{symbol}_btc` × `btc_usdt`, which requires a positive `btc_usdt` leg to
denominate), in that priority order, each accepted only with a positive
price; unresolved (`none`) if no route exists. -/
def resolvePriceSpec (symbol : String) (priceMap : PriceMap) : Option PyFloat :=
  if toUpperStr symbol ∈ specStablecoins then
    some (.num 1)
  else
    firstPositiveRoute
      [ priceMap.lookup (toLowerStr symbol ++ "_usdt"),
        priceMap.lookup (toLowerStr symbol ++ "_usd"),
        (priceMap.lookup (toLowerStr symbol ++ "_btc")).bind fun p =>
          (priceMap.lookup "btc_usdt").bind fun b =>
            if pyPos b then some (p.mul b) else Option.none ]

/-- The source's joint guard on the BTC route (`price > 0 and btc_usdt > 0`)
agrees with the spec reading (denominate when the `btc_usdt` leg is
positive, accept the route if its price is positive). -/
theorem btcRoute_guard_eq (rbt rb : Option PyFloat) :
    (match rbt with
      | some p =>
          if pyPos p = true ∧ pyPos (rb.getD (.num 0)) = true
          then some (p.mul (rb.getD (.num 0))) else Option.none
      | Option.none => Option.none)
      = firstPositiveRoute
          [rbt.bind fun p => rb.bind fun b =>
            if pyPos b then some (p.mul b) else Option.none] := by
  rcases rbt with _ | p
  · simp [firstPositiveRoute]
  rcases rb with _ | b
  · simp [firstPositiveRoute, pyPos, PyFloat.ltB]
  · simp only [Option.getD_some, Option.some_bind]
    by_cases hb : pyPos b = true
    · rw [if_pos hb]
      simp only [firstPositiveRoute]
      by_cases hp : pyPos p = true
      · rw [if_pos ⟨hp, hb⟩, if_pos (pyPos_mul hp hb)]
      · rw [if_neg (fun h => hp h.1), if_neg]
        intro hpb
        exact hp ((pyPos_mul_iff hb).mp hpb)
    · rw [if_neg (fun h => hb h.2), if_neg hb]
      simp [firstPositiveRoute]

theorem getPriceFromMap_eq_spec (symbol : String) (priceMap : PriceMap) :
    getPriceFromMap symbol priceMap = resolvePriceSpec symbol priceMap := by
  unfold getPriceFromMap resolvePriceSpec getPriceFromMap.getPriceFromMapUsd
    getPriceFromMap.getPriceFromMapBtc specStablecoins
  simp only [List.mem_cons, List.not_mem_nil, or_false]
  split
  · rfl
  rcases h1 : priceMap.lookup (toLowerStr symbol ++ "_usdt") with _ | p1 <;>
    rcases h2 : priceMap.lookup (toLowerStr symbol ++ "_usd") with _ | p2 <;>
      simp only [firstPositiveRoute] <;>
        (try split_ifs) <;>
          first
            | rfl
            | exact btcRoute_guard_eq _ _

/-- `firstPositiveRoute` only ever returns a positive price. -/
theorem firstPositiveRoute_pos :
    ∀ {l : List (Option PyFloat)} {p : PyFloat},
      firstPositiveRoute l = some p → pyPos p = true := by
  intro l
  induction l with
  | nil => intro p h; simp [firstPositiveRoute] at h
  | cons r rest ih =>
      intro p h
      rcases r with _ | q
      · exact ih h
      · simp only [firstPositiveRoute] at h
        split_ifs at h with hq
        · cases h; exact hq
        · exact ih h

/-- If the resolver yields a price, the price is positive under Python
comparison (stablecoins give 1; every other route is guarded). -/
theorem getPriceFromMap_pos {symbol : String} {priceMap : PriceMap} {p : PyFloat}
    (h : getPriceFromMap symbol priceMap = some p) : pyPos p = true := by
  rw [getPriceFromMap_eq_spec] at h
  unfold resolvePriceSpec at h
  split at h
  · cases h; rfl
  · exact firstPositiveRoute_pos h

/-- C6: For every symbol and price map, price resolution follows the contract:
a symbol on the fixed stablecoin allow-list resolves to exactly 1.0 regardless
of the map's contents; otherwise the `{symbol}_usdt` route is tried first, then
`{symbol}_usd`, then the BTC-denominated route (`{symbol}_btc` × `btc_usdt`),
in that priority order, each accepted only with a positive price; if none of
the three routes exists with a positive price the result is unresolved
(`none`), not an error. -/
theorem c6_price_resolution_follows_contract :
    ∀ (symbol : String) (priceMap : PriceMap),
      getPriceFromMap symbol priceMap = resolvePriceSpec symbol priceMap :=
  getPriceFromMap_eq_spec

/-! ## Price cache (`LBankService._get_all_prices_optimized`) -/

/-- One raw ticker row, as seen by the refresh loop.  `symbol` is
`str(row.get('symbol', ''))` (missing key modelled by `""`); `price` is
`row.get('price')`: `none` for a missing or falsy value (`None`, `0`, `""`
— all of which fail the `if symbol and price` guard identically), `some none`
for a truthy but unparseable value (`float` raises), `some (some q)` for a
value parsing to the float `q` (possibly `nan` or `inf`: `float` accepts
these spellings and `json` accepts the literals `NaN`/`Infinity`). -/
structure PriceRow where
  symbol : String
  price : Option (Option PyFloat)
deriving DecidableEq, Repr

/-- Insert with dict-overwrite semantics: `price_map[symbol] = price_float`. -/
def setPrice (m : PriceMap) (k : String) (q : PyFloat) : PriceMap :=
  if (m.lookup k).isSome then
    m.map (fun kv => if kv.1 = k then (k, q) else kv)
  else
    m ++ [(k, q)]

/-- One iteration of the row-parsing loop of `_get_all_prices_optimized`
(lines 738-749): lowercase the symbol, keep the row only if symbol and price
are truthy, the price parses, and the parsed price is `> 0` under Python
comparison (`nan` fails the comparison, `inf` passes it). -/
def parsePriceStep (m : PriceMap) (row : PriceRow) : PriceMap :=
  let symbol := toLowerStr row.symbol
  if symbol ≠ "" then
    match row.price with
    | some (some q) => if pyPos q then setPrice m symbol q else m
    | some Option.none => m
    | Option.none => m
  else m

/-- The row-parsing loop of `_get_all_prices_optimized`, starting from the
empty dict `price_map = {}`. -/
def parsePriceRows (rows : List PriceRow) : PriceMap :=
  rows.foldl parsePriceStep []

/-- Outcome of one host's `GET /v2/supplement/ticker/price.do`: an exception,
or an HTTP response with a status code and the extracted row list (the
shape-normalisation of lines 728-736 collapsed into the row list itself). -/
inductive PriceHostRes where
  | raise
  | httpRes (status : ℕ) (rows : List PriceRow)
deriving DecidableEq, Repr

/-- The price-cache state of `LBankService` (`_price_cache`,
`_price_cache_timestamp`); `_price_cache_ttl` is the constant 5.0. -/
structure CacheState where
  cache : PriceMap
  timestamp : ℚ
deriving DecidableEq, Repr

def priceCacheTtl : ℚ := 5

/-- `LBankService._get_all_prices_optimized`: serve a fresh non-empty cache;
otherwise scan hosts in order, replacing the cache with the first non-empty
parsed price map; if every host fails, fall back to the previous non-empty
cache unchanged, else return `{}`.  (The rate-limiter admission only delays
execution and is not part of the value semantics; `now` is the `time.time()`
read at the top of the call.) -/
def getAllPricesOptimized (st : CacheState) (now : ℚ) (hosts : List PriceHostRes) :
    PriceMap × CacheState :=
  if now - st.timestamp < priceCacheTtl ∧ st.cache ≠ [] then
    (st.cache, st)
  else
    loopHosts st now hosts
where
  /-- the `for base_url in self.rest_hosts` loop plus the expired-cache
  fallback after it. -/
  loopHosts (st : CacheState) (now : ℚ) : List PriceHostRes → PriceMap × CacheState
    | [] =>
        if st.cache ≠ [] then (st.cache, st) else ([], st)
    | h :: rest =>
        match h with
        | .raise => loopHosts st now rest
        | .httpRes status rows =>
            if status ≠ 200 then loopHosts st now rest
            else
              let priceMap := parsePriceRows rows
              if priceMap ≠ [] then (priceMap, ⟨priceMap, now⟩)
              else loopHosts st now rest

/-- A host outcome that fails to produce a refreshed price map: an exception,
a non-200 status, or a payload whose rows parse to an empty map. -/
def hostYieldsNoMap : PriceHostRes → Prop
  | .raise => True
  | .httpRes status rows => status ≠ 200 ∨ parsePriceRows rows = []

instance (h : PriceHostRes) : Decidable (hostYieldsNoMap h) := by
  cases h <;> simp only [hostYieldsNoMap] <;> infer_instance

theorem loopHosts_all_fail (st : CacheState) (now : ℚ) :
    ∀ (hosts : List PriceHostRes), (∀ h ∈ hosts, hostYieldsNoMap h) →
      getAllPricesOptimized.loopHosts st now hosts =
        (if st.cache ≠ [] then (st.cache, st) else ([], st)) := by
  intro hosts
  induction hosts with
  | nil => intro _; rfl
  | cons h rest ih =>
      intro hall
      have hh := hall h (List.mem_cons_self h rest)
      have hrest := fun x hx => hall x (List.mem_cons_of_mem h hx)
      cases h with
      | raise => exact ih hrest
      | httpRes status rows =>
          simp only [hostYieldsNoMap] at hh
          simp only [getAllPricesOptimized.loopHosts]
          rcases hh with hs | hp
          · rw [if_pos hs]; exact ih hrest
          · by_cases hs : status ≠ 200
            · rw [if_pos hs]; exact ih hrest
            · rw [if_neg hs]
              simp only [hp, ne_eq, not_true_eq_false, if_false, ite_false]
              exact ih hrest

/-- C8: if a previous non-empty snapshot exists, the cache is stale, and every
host fails to produce a refreshed price map, `_get_all_prices_optimized`
returns the previous snapshot unchanged — same mapping, timestamp not
refreshed — rather than an empty mapping or an error. -/
theorem c8_stale_cache_fallback
    (st : CacheState) (now : ℚ) (hosts : List PriceHostRes)
    (hnonempty : st.cache ≠ [])
    (hstale : ¬ now - st.timestamp < priceCacheTtl)
    (hfail : ∀ h ∈ hosts, hostYieldsNoMap h) :
    getAllPricesOptimized st now hosts = (st.cache, st) := by
  unfold getAllPricesOptimized
  rw [if_neg (fun hc => hstale hc.1), loopHosts_all_fail st now hosts hfail,
    if_pos hnonempty]

/-- Witness for C8: a concrete stale state with one raising host and one
host returning an empty payload falls back to the old snapshot. -/
theorem c8_witness :
    getAllPricesOptimized ⟨[("btc_usdt", .num 50000)], 0⟩ 100
        [.raise, .httpRes 500 [⟨"eth_usdt", some (some (.num 3000))⟩], .httpRes 200 []]
      = ([("btc_usdt", .num 50000)], ⟨[("btc_usdt", .num 50000)], 0⟩) :=
  c8_stale_cache_fallback _ _ _ (by decide) (by norm_num [priceCacheTtl]) (by decide)

/-! ## Lowercase-key and positivity invariants of the refreshed price map -/

theorem toNat_ofNat_valid {n : ℕ} (h : n.isValidChar) : (Char.ofNat n).toNat = n := by
  rw [Char.ofNat, dif_pos h]; rfl

theorem isUpper_eq_decide (c : Char) :
    c.isUpper = (decide (65 ≤ c.toNat) && decide (c.toNat ≤ 90)) := by
  simp only [Char.isUpper, Char.toNat, UInt32.le_def, BitVec.le_def, ge_iff_le]
  rfl

/-- ASCII case folding never produces an uppercase letter. -/
theorem toLower_not_isUpper (c : Char) : (Char.toLower c).isUpper = false := by
  unfold Char.toLower
  simp only []
  split
  · rename_i h
    have hv : (Char.ofNat (c.toNat + 32)).toNat = c.toNat + 32 :=
      toNat_ofNat_valid (Or.inl (by omega))
    rw [isUpper_eq_decide, hv]
    simp only [Bool.and_eq_false_iff, decide_eq_false_iff_not, not_le]
    omega
  · rename_i h
    rw [isUpper_eq_decide]
    simp only [Bool.and_eq_false_iff, decide_eq_false_iff_not, not_le]
    omega

theorem toLowerStr_not_isUpper (s : String) :
    ∀ c ∈ (toLowerStr s).data, c.isUpper = false := by
  intro c hc
  simp only [toLowerStr, List.mem_map] at hc
  obtain ⟨d, _, rfl⟩ := hc
  exact toLower_not_isUpper d

/-- The invariant of every entry the refresh loop stores: non-empty
lowercase key, price strictly positive under Python comparison (`pyPos`:
`inf` qualifies, `nan` and non-positive finite values do not). -/
def GoodPriceEntry (kv : String × PyFloat) : Prop :=
  kv.1 ≠ "" ∧ (∀ c ∈ kv.1.data, c.isUpper = false) ∧ pyPos kv.2 = true

theorem setPrice_good {m : PriceMap} {k : String} {q : PyFloat}
    (hm : ∀ kv ∈ m, GoodPriceEntry kv) (hk : GoodPriceEntry (k, q)) :
    ∀ kv ∈ setPrice m k q, GoodPriceEntry kv := by
  intro kv hkv
  unfold setPrice at hkv
  split at hkv
  · simp only [List.mem_map] at hkv
    obtain ⟨kv0, hkv0, hrepl⟩ := hkv
    by_cases hc : kv0.1 = k
    · rw [if_pos hc] at hrepl; exact hrepl ▸ hk
    · rw [if_neg hc] at hrepl; exact hrepl ▸ hm kv0 hkv0
  · rcases List.mem_append.mp hkv with h | h
    · exact hm kv h
    · rcases List.mem_singleton.mp h with rfl; exact hk

theorem parsePriceStep_good {m : PriceMap} (row : PriceRow)
    (hm : ∀ kv ∈ m, GoodPriceEntry kv) :
    ∀ kv ∈ parsePriceStep m row, GoodPriceEntry kv := by
  obtain ⟨sym, price⟩ := row
  unfold parsePriceStep
  dsimp only
  by_cases hs : toLowerStr sym ≠ ""
  · rw [if_pos hs]
    rcases price with _ | op
    · exact hm
    · rcases op with _ | q
      · exact hm
      · dsimp only
        by_cases hq : pyPos q = true
        · rw [if_pos hq]
          exact setPrice_good hm ⟨hs, toLowerStr_not_isUpper sym, hq⟩
        · rw [if_neg hq]; exact hm
  · rw [if_neg hs]; exact hm

theorem parsePriceRows_aux_good (rows : List PriceRow) :
    ∀ (m : PriceMap), (∀ kv ∈ m, GoodPriceEntry kv) →
      ∀ kv ∈ rows.foldl parsePriceStep m, GoodPriceEntry kv := by
  induction rows with
  | nil => intro m hm; exact hm
  | cons row rest ih =>
      intro m hm
      simp only [List.foldl_cons]
      exact ih (parsePriceStep m row) (parsePriceStep_good row hm)

theorem parsePriceRows_good (rows : List PriceRow) :
    ∀ kv ∈ parsePriceRows rows, GoodPriceEntry kv :=
  parsePriceRows_aux_good rows [] (by intro kv h; cases h)

/-- Over the host loop, the cache state is either untouched or replaced by a
non-empty parsed price map. -/
theorem loopHosts_state (st : CacheState) (now : ℚ) :
    ∀ (hosts : List PriceHostRes),
      (getAllPricesOptimized.loopHosts st now hosts).2 = st ∨
        ∃ rows, (getAllPricesOptimized.loopHosts st now hosts).2 =
            ⟨parsePriceRows rows, now⟩ ∧ parsePriceRows rows ≠ [] := by
  intro hosts
  induction hosts with
  | nil =>
      left
      simp only [getAllPricesOptimized.loopHosts]
      split <;> rfl
  | cons h rest ih =>
      cases h with
      | raise => exact ih
      | httpRes status rows =>
          simp only [getAllPricesOptimized.loopHosts]
          split
          · exact ih
          · by_cases hp : parsePriceRows rows ≠ []
            · right
              exact ⟨rows, by rw [if_pos hp], hp⟩
            · rw [if_neg hp]; exact ih

/-- C9 as stated is false: `float('inf')` parses (Python also reads the JSON
literal `Infinity` as `inf`) and `inf > 0` is `True`, so a refresh stores an
infinite — not finite — price under the lowercased key. -/
theorem c9_counterexample :
    parseFloat? "inf" = some PyFloat.inf ∧
      ((getAllPricesOptimized ⟨[], 0⟩ 10
          [.httpRes 200 [⟨"X_USDT", some (some PyFloat.inf)⟩]]).2).cache
        = [("x_usdt", PyFloat.inf)] ∧
      PyFloat.isFinite PyFloat.inf = false := by
  decide

/-- C9 amended: every entry stored into the in-memory price cache by a
refresh has a non-empty lowercase pair-symbol key and a price strictly
positive under Python comparison — which admits `inf` but excludes `nan` —
rows with a missing symbol, a missing price, an unparseable price, or a
price not greater than 0 are dropped, and the cache is only replaced by a
refreshed map containing at least one entry; the stored price need not be
finite. -/
theorem c9_cache_entry_invariant
    (st : CacheState) (now : ℚ) (hosts : List PriceHostRes)
    (hchange : ((getAllPricesOptimized st now hosts).2).cache ≠ st.cache) :
    ((getAllPricesOptimized st now hosts).2).cache ≠ [] ∧
      ∀ kv ∈ ((getAllPricesOptimized st now hosts).2).cache,
        kv.1 ≠ "" ∧ (∀ c ∈ kv.1.data, c.isUpper = false) ∧ pyPos kv.2 = true := by
  revert hchange
  unfold getAllPricesOptimized
  split
  · intro hchange; exact absurd rfl hchange
  · intro hchange
    rcases loopHosts_state st now hosts with hsame | ⟨rows, heq, hne⟩
    · rw [hsame] at hchange; exact absurd rfl hchange
    · rw [heq]
      exact ⟨hne, parsePriceRows_good rows⟩

/-- The mixed payload of the C9 witness: one good finite row, one good
infinite row, and four rows that are dropped (empty symbol, missing price,
unparseable price, `nan` price). -/
def c9Rows : List PriceRow :=
  [⟨"BTC_USDT", some (some (.num 50000))⟩,
    ⟨"", some (some (.num 7))⟩,
    ⟨"eth_usdt", Option.none⟩,
    ⟨"doge_usdt", some Option.none⟩,
    ⟨"nan_usdt", some (some PyFloat.nan)⟩,
    ⟨"neg_usdt", some (some (.num (-3)))⟩]

/-- Witness for C9 (amended): a refresh from a host whose payload mixes good
and bad rows stores exactly the good ones, each with a non-empty lowercase
key and a Python-positive price. -/
theorem c9_witness :
    ((getAllPricesOptimized ⟨[], 0⟩ 10 [.httpRes 200 c9Rows]).2).cache ≠ [] ∧
      ∀ kv ∈ ((getAllPricesOptimized ⟨[], 0⟩ 10 [.httpRes 200 c9Rows]).2).cache,
        kv.1 ≠ "" ∧ (∀ c ∈ kv.1.data, c.isUpper = false) ∧ pyPos kv.2 = true :=
  c9_cache_entry_invariant _ _ _ (by decide)

/-! ## `LBankService.get_ticker_price` -/

/-- `LBankService.get_ticker_price`: `try: price_map = await
self._get_all_prices_optimized(); return self._get_price_from_map(symbol,
price_map); except: return None`.  The internal fetch is modelled by the
value it produced or the exception it raised. -/
def getTickerPrice (fetchResult : Except String PriceMap) (symbol : String) :
    Option PyFloat :=
  match fetchResult with
  | .error _ => Option.none
  | .ok priceMap => getPriceFromMap symbol priceMap

/-- C10: `get_ticker_price` never propagates an exception — on any internal
failure it returns `None` — and it returns a number only when the resolver
finds a price that is positive under Python comparison (stablecoins resolve
to the positive constant 1). -/
theorem c10_ticker_price_no_exception
    (fetchResult : Except String PriceMap) (symbol : String) :
    (∀ e, fetchResult = .error e → getTickerPrice fetchResult symbol = Option.none) ∧
      (∀ p, getTickerPrice fetchResult symbol = some p →
        (∃ priceMap, fetchResult = .ok priceMap ∧
          getPriceFromMap symbol priceMap = some p) ∧ pyPos p = true) := by
  constructor
  · intro e he; rw [he]; rfl
  · intro p hp
    cases fetchResult with
    | error e => exact absurd hp (by simp [getTickerPrice])
    | ok priceMap =>
        exact ⟨⟨priceMap, rfl, hp⟩, getPriceFromMap_pos hp⟩

/-- Witness for C10: a raising fetch yields `None`; a successful fetch
resolves BTC through the `btc_usdt` pair to the positive price 50000. -/
theorem c10_witness :
    getTickerPrice (.error "transport") "BTC" = Option.none ∧
      getPriceFromMap "BTC" [("btc_usdt", .num 50000)] = some (.num 50000) ∧
        pyPos (PyFloat.num 50000) = true := by
  refine ⟨(c10_ticker_price_no_exception (.error "transport") "BTC").1 "transport" rfl,
    by decide,
    ((c10_ticker_price_no_exception (.ok [("btc_usdt", .num 50000)]) "BTC").2
      (.num 50000) (by decide)).2⟩

/-! ## Spot normalization (`LBankService.get_portfolio_data`, lines 960-1095)

The raw wallet payload has already been located by
`_extract_assets_from_response`; the loop below consumes the extracted row
list.  Fields that the claims cannot observe (`id`, `costBasis`,
`averageBuyPrice`, `unrealizedPnl*`, `lastUpdated` — constants or wall-clock
timestamps) are omitted from the asset record. -/

/-- One raw spot balance row; `Option.none` models a missing key. -/
structure SpotRow where
  coin : Option PyVal := Option.none
  asset : Option PyVal := Option.none
  usableAmt : Option PyVal := Option.none
  freezeAmt : Option PyVal := Option.none
  assetAmt : Option PyVal := Option.none
deriving DecidableEq, Repr

/-- A normalized spot asset (the fields of the dict built at lines 1009-1024
that the claims observe). -/
structure SpotAsset where
  symbol : String
  quantity : PyFloat
  free : PyFloat
  frozen : PyFloat
  priceUSD : Option PyFloat
  valueUSD : Option PyFloat
  tier : String
  accountType : String
deriving DecidableEq, Repr

/-- `LBankService._get_asset_tier`. -/
def getAssetTier (symbol : String) : String :=
  let coreAssets : List String := ["BTC", "ETH", "USDT", "USDC"]
  let satelliteAssets : List String := ["ADA", "DOT", "LINK", "XRP", "MATIC", "BNB", "SOL"]
  let symbolUpper := toUpperStr symbol
  if symbolUpper ∈ coreAssets then "CORE"
  else if symbolUpper ∈ satelliteAssets then "SATELLITE"
  else "SPECULATIVE"

/-- `float(str(row.get(field, '0') or '0').strip() or 0.0)` (lines 977-999):
a missing or falsy field is `'0'`; a numeric field round-trips through
`str`/`float` to itself (including `nan`/`inf`, whose `str` spellings
`float` reads back); a string field is stripped and parsed — `'nan'`,
`'inf'`/`'infinity'` (any case, optional sign) and exponent notation all
parse, as in Python — with the empty string giving `0.0`; `none` where
`float` raises `ValueError`, which drops the row. -/
def amountOf (v : Option PyVal) : Option PyFloat :=
  let w := v.getD (.str "0")
  match (if pyTruthy w then w else .str "0") with
  | .num q => some q
  | .str s =>
      let s2 := trimStr s
      if s2 = "" then some (.num 0) else parseFloat? s2
  | .none => some (.num 0)

/-- `str(row.get('coin', '') or row.get('asset', '')).upper()` (line 968). -/
def spotSymbol (row : SpotRow) : String :=
  toUpperStr (pyStr (pyOr [some (row.coin.getD (.str "")), some (row.asset.getD (.str ""))]))

/-- One iteration of the spot-asset loop (lines 966-1046): sanity of the
symbol, numeric parsing, the `assetAmt`-vs-sum quantity choice, the
`quantity <= 0` filter, pricing and tiering.  (The `except` branch at lines
1029-1046 is unreachable here: `_get_price_from_map` cannot raise.)  Returns
`none` when the row is skipped. -/
def processSpotRow (priceMap : PriceMap) (row : SpotRow) : Option SpotAsset :=
  let symbol := spotSymbol row
  if symbol = "" then Option.none
  else
    match amountOf row.usableAmt, amountOf row.freezeAmt, amountOf row.assetAmt with
    | some usable, some frozen, some assetAmt =>
        let quantity := if pyPos assetAmt then assetAmt else usable.add frozen
        if PyFloat.leB quantity (.num 0) then Option.none
        else
          let price := getPriceFromMap symbol priceMap
          let currentPrice :=
            match price with
            | some p => if pyPos p then some p else Option.none
            | Option.none => Option.none
          let valueUSD :=
            match currentPrice with
            | some p => some (quantity.mul p)
            | Option.none => Option.none
          some
            { symbol := symbol
              quantity := quantity
              free := usable
              frozen := frozen
              priceUSD := currentPrice
              valueUSD := valueUSD
              tier := getAssetTier symbol
              accountType := "SPOT" }
    | _, _, _ => Option.none

/-- The result dict of `get_portfolio_data` (spot only; the trade-account
block at lines 1051-1079 deliberately adds nothing to `assets`). -/
structure PortfolioData where
  totalValueUSD : PyFloat
  costBasis : ℚ
  assets : List SpotAsset
deriving DecidableEq, Repr

/-- `LBankService.get_portfolio_data`, from the extracted spot rows to the
returned dict: build the asset list, then recompute the total strictly from
the final asset list (`float(a.get("valueUSD") or 0)`, lines 1081-1095). -/
def getPortfolioData (rows : List SpotRow) (priceMap : PriceMap) : PortfolioData :=
  let assets := rows.filterMap (processSpotRow priceMap)
  let totalValueFinal := assets.foldl (fun acc a => acc + a.valueUSD.getD 0) 0
  { totalValueUSD := totalValueFinal, costBasis := 0, assets := assets }

/-- Every asset retained by the spot loop has a quantity that does not
compare `<= 0` in Python: the `quantity <= 0` filter drops a row exactly when
the comparison is true, which a `nan` quantity never is. -/
theorem processSpotRow_pos {priceMap : PriceMap} {row : SpotRow} {a : SpotAsset}
    (h : processSpotRow priceMap row = some a) :
    PyFloat.leB a.quantity (.num 0) = false := by
  unfold processSpotRow at h
  by_cases hs : spotSymbol row = ""
  · rw [if_pos hs] at h; cases h
  · rw [if_neg hs] at h
    rcases hu : amountOf row.usableAmt with _ | usable <;>
      rcases hf : amountOf row.freezeAmt with _ | frozen <;>
        rcases ha : amountOf row.assetAmt with _ | assetAmt <;>
          simp only [hu, hf, ha, reduceCtorEq] at h
    split_ifs at h with h1 h2 h3
    · cases h; simpa using h2
    · cases h; simpa using h3

theorem getPortfolioData_assets_pos (rows : List SpotRow) (priceMap : PriceMap) :
    ∀ a ∈ (getPortfolioData rows priceMap).assets,
      PyFloat.leB a.quantity (.num 0) = false := by
  intro a ha
  unfold getPortfolioData at ha
  simp only [List.mem_filterMap] at ha
  obtain ⟨row, _, hrow⟩ := ha
  exact processSpotRow_pos hrow

/-- C7: the reported `totalValueUSD` equals the sum of each retained asset's
`valueUSD` with null treated as 0 — recomputed from the final asset list. -/
theorem c7_total_is_recomputed_sum (rows : List SpotRow) (priceMap : PriceMap) :
    (getPortfolioData rows priceMap).totalValueUSD =
      ((getPortfolioData rows priceMap).assets.map (fun a => a.valueUSD.getD 0)).sum := by
  unfold getPortfolioData
  simp only
  rw [List.sum_eq_foldl, List.foldl_map]

/-! ## Contract-balance normalization (`LBankService._parse_contract_balances`) -/

/-- One contract balance entry: the dict fields the parser reads.  Missing
keys are `Option.none`. -/
structure ContractEntry where
  asset : Option PyVal := Option.none
  currency : Option PyVal := Option.none
  symbol : Option PyVal := Option.none
  marginBalance : Option PyVal := Option.none
  equity : Option PyVal := Option.none
  balance : Option PyVal := Option.none
  cashBalance : Option PyVal := Option.none
  availableBalance : Option PyVal := Option.none
  available : Option PyVal := Option.none
  withdrawAvailable : Option PyVal := Option.none
  unrealizedPnl : Option PyVal := Option.none
  unrealized : Option PyVal := Option.none
  profit : Option PyVal := Option.none
deriving DecidableEq, Repr

/-- The `data` value of the contract-balance payload (`payload.get("data",
payload)`, lines 336-339): either a list of entry dicts (non-dict elements
are already filtered out, line 360), or a dict carrying the optional
candidate lists `balances`/`accountBalance`/`assets`/`accounts` and its own
scalar fields (used as a single entry when no candidate list is present). -/
inductive ContractData where
  | arr (entries : List ContractEntry)
  | obj (balances accountBalance assets accounts : Option (List ContractEntry))
      (selfEntry : ContractEntry)
deriving DecidableEq, Repr

/-- Entry extraction (lines 341-360): concatenate every candidate list that
is present, in candidate order; if none is present, treat the dict itself as
a single entry. -/
def contractEntries : ContractData → List ContractEntry
  | .arr entries => entries
  | .obj balances accountBalance assets accounts selfEntry =>
      let candidates := [balances, accountBalance, assets, accounts]
      if candidates.any Option.isSome then (candidates.filterMap id).flatten
      else [selfEntry]

/-- A normalized futures asset (the dict built at lines 402-413). -/
structure FuturesAsset where
  symbol : String
  free : PyFloat
  frozen : PyFloat
  quantity : PyFloat
  priceUSD : Option PyFloat
  valueUSD : Option PyFloat
  unrealizedPnl : Option PyFloat
  accountType : String
deriving DecidableEq, Repr

/-- `self._safe_float(entry.get("marginBalance") or entry.get("equity") or
entry.get("balance") or entry.get("cashBalance") or entry.get("asset"))`. -/
def contractMargin (e : ContractEntry) : Option PyFloat :=
  safeFloat (pyOr [e.marginBalance, e.equity, e.balance, e.cashBalance, e.asset])

/-- `self._safe_float(entry.get("availableBalance") or entry.get("available")
or entry.get("withdrawAvailable") or entry.get("cashBalance"))`. -/
def contractAvailable (e : ContractEntry) : Option PyFloat :=
  safeFloat (pyOr [e.availableBalance, e.available, e.withdrawAvailable, e.cashBalance])

/-- `margin_balance if margin_balance is not None else available_balance`:
the amount reference, which is also exactly the `quantity` stored in the
asset dict (line 407). -/
def contractAmountRef (e : ContractEntry) : Option PyFloat :=
  match contractMargin e with
  | some m => some m
  | Option.none => contractAvailable e

/-- The stablecoin set local to `_parse_contract_balances` (line 362). -/
def contractStablecoins : List String := ["USDT", "USDC", "TUSD", "USDD", "BUSD"]

/-- One iteration of the entry loop (lines 364-416); `none` when the entry is
skipped (`amount_reference is None`). -/
def parseContractEntry (priceMap : PriceMap) (e : ContractEntry) : Option FuturesAsset :=
  let currency := toUpperStr (pyStr (pyOr [e.asset, e.currency, e.symbol, some (.str "USDT")]))
  let marginBalance := contractMargin e
  let availableBalance := contractAvailable e
  let frozenBalance :=
    match marginBalance, availableBalance with
    | some m, some av => some (pyMax (m.sub av) (.num 0))
    | _, _ => Option.none
  let unrealized := safeFloat (pyOr [e.unrealizedPnl, e.unrealized, e.profit])
  match contractAmountRef e with
  | Option.none => Option.none
  | some amountReference =>
      let priceValue : Option PyFloat × Option PyFloat :=
        if currency ∈ contractStablecoins then
          (some (.num 1), some amountReference)
        else
          match getPriceFromMap currency priceMap with
          | some p =>
              if p ≠ .num 0 then (some p, some (amountReference.mul p))
              else (some p, Option.none)
          | Option.none => (Option.none, Option.none)
      some
        { symbol := currency
          free := availableBalance.getD amountReference
          frozen := frozenBalance.getD (.num 0)
          quantity := match marginBalance with
            | some m => m
            | Option.none => amountReference
          priceUSD := priceValue.1
          valueUSD := priceValue.2
          unrealizedPnl := unrealized
          accountType := "FUTURES" }

/-- The normalized result of `_parse_contract_balances`: total over the
non-null values, and the asset list. -/
structure ContractBalances where
  totalValueUSD : PyFloat
  assets : List FuturesAsset
deriving DecidableEq, Repr

/-- `LBankService._parse_contract_balances`. -/
def parseContractBalances (payload : ContractData) (priceMap : PriceMap) :
    ContractBalances :=
  let assets := (contractEntries payload).filterMap (parseContractEntry priceMap)
  let totalValue := assets.foldl
    (fun acc a => match a.valueUSD with | some v => acc + v | Option.none => acc) 0
  { totalValueUSD := totalValue, assets := assets }

/-- C2 as stated is false on both paths: the contract entry
`{"asset": "BTC", "marginBalance": "-5"}` is retained by
`_parse_contract_balances` with quantity −5 ≤ 0, and the spot row
`{"coin": "btc", "usableAmt": "nan"}` is retained by `get_portfolio_data`
with quantity `nan` (the `quantity <= 0` filter does not drop it because
`nan <= 0` is `False` in Python, yet `nan` is not strictly greater than 0
either). -/
theorem c2_counterexample :
    ((parseContractBalances
        (.arr [{ asset := some (.str "BTC"), marginBalance := some (.str "-5") }])
        []).assets.map (fun a => a.quantity)) = [PyFloat.num (-5)] ∧
      ((getPortfolioData [{ coin := some (.str "btc"), usableAmt := some (.str "nan") }]
          []).assets.map (fun a => a.quantity)) = [PyFloat.nan] ∧
      pyPos PyFloat.nan = false := by
  refine ⟨by decide, by decide, by decide⟩

/-- The quantity stored by `parseContractEntry` is exactly the amount
reference; a retained contract entry's quantity equals its margin balance
(or, failing that, its available balance), with no sign filter. -/
theorem parseContractEntry_quantity (priceMap : PriceMap) (e : ContractEntry) :
    (parseContractEntry priceMap e).map (fun a => a.quantity) = contractAmountRef e := by
  unfold parseContractEntry
  rcases har : contractAmountRef e with _ | amountReference
  · simp
  · simp only [Option.map_some]
    unfold contractAmountRef at har
    rcases hm : contractMargin e with _ | m
    · rw [hm] at har
      simp [har]
    · rw [hm] at har
      cases har
      simp

/-- C2 amended: spot normalization drops exactly the records whose quantity
compares `<= 0` in Python — each retained spot asset's quantity never
compares `<= 0` (it is strictly positive or `nan`, since `nan` fails every
comparison) — while the futures/contract parser retains an entry whenever
any numeric amount reference is derivable, storing that amount (margin
balance, else available balance) as the quantity even when it is zero or
negative; only entries with no derivable numeric amount are dropped. -/
theorem c2_spot_positive_contract_unfiltered :
    (∀ (rows : List SpotRow) (priceMap : PriceMap),
      ∀ a ∈ (getPortfolioData rows priceMap).assets,
        PyFloat.leB a.quantity (.num 0) = false) ∧
      (∀ (priceMap : PriceMap) (e : ContractEntry),
        (parseContractEntry priceMap e).map (fun a => a.quantity) = contractAmountRef e) :=
  ⟨getPortfolioData_assets_pos, parseContractEntry_quantity⟩

/-- Witness for C2 (amended): the spec §8 end-to-end row
`{coin:"btc", usableAmt:"1.0", freezeAmt:"0.0", assetAmt:"1.0"}` is retained
with quantity 1, which does not compare `<= 0`. -/
theorem c2_witness :
    PyFloat.leB (SpotAsset.mk "BTC" (.num 1) (.num 1) (.num 0) (some (.num 50000))
        (some (.num 50000)) "CORE" "SPOT").quantity (.num 0) = false :=
  c2_spot_positive_contract_unfiltered.1
    [{ coin := some (.str "btc"), usableAmt := some (.str "1.0"),
        freezeAmt := some (.str "0.0"), assetAmt := some (.str "1.0") }]
    [("btc_usdt", .num 50000)]
    (SpotAsset.mk "BTC" (.num 1) (.num 1) (.num 0) (some (.num 50000))
        (some (.num 50000)) "CORE" "SPOT")
    (by decide)

/-! ## Portfolio aggregation (`PortfolioService.get_portfolio`, lines 61-137)

The live-fetch block runs inside `try: ... except Exception: live_portfolio =
None`.  Each awaited fetch is modelled by the value it produced or the
exception it raised (a timeout raises `asyncio.TimeoutError`, caught by the
same handler).  `get_futures_balances` is awaited twice (lines 73 and 87);
both outcomes are parameters. -/

/-- A futures position as attached by `get_futures_balances` (pass-through
data for the aggregator). -/
structure FuturesPosition where
  symbol : String
  side : String
  notionalValueUSD : Option ℚ
deriving DecidableEq, Repr

/-- The dict returned by `LBankService.get_futures_balances`. -/
structure FuturesDetail where
  totalValueUSD : PyFloat
  assets : List FuturesAsset
  positions : List FuturesPosition
deriving DecidableEq, Repr

/-- `sum(float(a.get("valueUSD") or 0) for a in assets_list)` (line 85). -/
def sumSpotValueUSD (assets : List SpotAsset) : PyFloat :=
  (assets.map (fun a => a.valueUSD.getD 0)).sum

/-- `sum(float(a.get("valueUSD") or 0) for a in futures_assets)` (line 96). -/
def sumFuturesValueUSD (assets : List FuturesAsset) : PyFloat :=
  (assets.map (fun a => a.valueUSD.getD 0)).sum

/-- The live-portfolio dict built at lines 103-131 (the fields the claims
observe; percentages, timestamps and the constant pnl/history fields are
omitted). -/
structure LivePortfolio where
  totalValueUSD : PyFloat
  spotValueUSD : PyFloat
  futuresValueUSD : PyFloat
  assets : List SpotAsset
  futuresBalanceUSD : PyFloat
  futuresAssets : List FuturesAsset
  futuresPositions : List FuturesPosition
deriving DecidableEq, Repr

/-- The `try`-block of lines 63-131 plus its `except` handlers (lines
132-137): any exception from the spot fetch or either futures fetch makes
`live_portfolio = None`; otherwise the live dict is built from the spot data
and the second futures result. -/
def buildLivePortfolio (spotRes : Except String PortfolioData)
    (futuresRes1 futuresRes2 : Except String FuturesDetail) : Option LivePortfolio :=
  match spotRes with
  | .error _ => Option.none
  | .ok liveData =>
      match futuresRes1 with
      | .error _ => Option.none
      | .ok _ =>
          match futuresRes2 with
          | .error _ => Option.none
          | .ok futuresDetail =>
              let assetsList := liveData.assets
              let spotTotal := sumSpotValueUSD assetsList
              let futuresAssets := futuresDetail.assets
              let futuresPositions := futuresDetail.positions
              let futuresTotal := sumFuturesValueUSD futuresAssets
              let total := spotTotal + futuresTotal
              some
                { totalValueUSD := total
                  spotValueUSD := spotTotal
                  futuresValueUSD := futuresTotal
                  assets := assetsList
                  futuresBalanceUSD := futuresTotal
                  futuresAssets := futuresAssets
                  futuresPositions := futuresPositions }

/-- The saved (persisted) portfolio fields the summary can fall back to. -/
structure SavedPortfolio where
  totalValueUSD : PyFloat
  assetCount : ℕ
deriving DecidableEq, Repr

/-- The caller-visible response of `get_portfolio` (the summary fields the
claims observe; the saved-portfolio passthrough is independent of the live
fetch). -/
structure PortfolioResponse where
  livePortfolio : Option LivePortfolio
  summaryTotalValueUSD : PyFloat
  summaryTotalAssets : ℕ
deriving DecidableEq, Repr

/-- `PortfolioService.get_portfolio`, from the fetch outcomes to the
response: build the live portfolio (or `None` on any exception), then the
summary prefers live data when its total/count is positive (lines 139-157).
The function is total — no exception reaches the caller. -/
def getPortfolio (saved : SavedPortfolio) (spotRes : Except String PortfolioData)
    (futuresRes1 futuresRes2 : Except String FuturesDetail) : PortfolioResponse :=
  let live := buildLivePortfolio spotRes futuresRes1 futuresRes2
  let liveTotalValue := match live with | some lp => lp.totalValueUSD | Option.none => 0
  let liveAssetCount := match live with | some lp => lp.assets.length | Option.none => 0
  { livePortfolio := live
    summaryTotalValueUSD :=
      if pyPos liveTotalValue then liveTotalValue else saved.totalValueUSD
    summaryTotalAssets :=
      if 0 < liveAssetCount then liveAssetCount else saved.assetCount }

/-- A concrete successful spot fetch with total 1000. -/
def c1SpotData : PortfolioData :=
  { totalValueUSD := .num 1000
    costBasis := 0
    assets := [{ symbol := "USDT", quantity := .num 1000, free := .num 1000,
                 frozen := .num 0, priceUSD := some (.num 1),
                 valueUSD := some (.num 1000),
                 tier := "CORE", accountType := "SPOT" }] }

/-- C1 as stated is false: with the spot fetch succeeding (total 1000) and
the futures fetch raising a transport exception, `get_portfolio` does NOT
return a spot-only live portfolio — the live portfolio is discarded
entirely (`None`). -/
theorem c1_counterexample :
    buildLivePortfolio (.ok c1SpotData) (.error "transport error")
        (.error "transport error") = Option.none := by
  rfl

/-- C1 amended: when the spot fetch succeeds and either futures fetch raises,
no exception propagates to the caller — `get_portfolio` still returns a
response — but the live portfolio is dropped entirely (`livePortfolio =
None`, spot data included) and the summary falls back to the persisted
portfolio's totals; the futures failure is thus escalated to the loss of the
whole live fetch, not degraded to spot-only data. -/
theorem c1_futures_failure_discards_live_portfolio
    (saved : SavedPortfolio) (spotData : PortfolioData) (e : String)
    (futuresRes2 : Except String FuturesDetail) (futuresDetail : FuturesDetail) :
    getPortfolio saved (.ok spotData) (.error e) futuresRes2
        = { livePortfolio := Option.none
            summaryTotalValueUSD := saved.totalValueUSD
            summaryTotalAssets := saved.assetCount } ∧
      getPortfolio saved (.ok spotData) (.ok futuresDetail) (.error e)
        = { livePortfolio := Option.none
            summaryTotalValueUSD := saved.totalValueUSD
            summaryTotalAssets := saved.assetCount } := by
  constructor <;> simp [getPortfolio, buildLivePortfolio, pyPos_zero]

/-! ## Multi-host failover (`_get_user_assets_supplement`,
`_post_contract_signed`)

`LBANK_USE_CONNECTOR` defaults to `false`, so `_connector_available` is
`False` and `_get_user_assets_supplement` goes straight to the manual-HTTP
host loop (lines 617-652). -/

/-- How a signed call can terminate. `aggregated` models
`Exception(f"Failed to fetch user assets: {', '.join(errors)}")`; `bare`
models `raise last_error`; `allHostsUnreachable` models
`Exception("Contract API: all hosts unreachable")`. -/
inductive FetchErr where
  | aggregated (msg : String) (errs : List String)
  | bare (e : String)
  | allHostsUnreachable
deriving DecidableEq, Repr

/-- Is the error the aggregated per-host form? -/
def FetchErr.isAggregated : FetchErr → Bool
  | .aggregated _ _ => true
  | _ => false

/-- The outcome of `_post_signed` against one host, as classified by the
response handling of lines 626-645: an exception, a list (with its length),
or a dict (`resultTrue` is `_is_result_true(data.get('result'))`, `msg` is
the already-resolved `data.get('msg') or data.get('error_msg', 'Unknown
error')`). `payload` identifies the host's response data. -/
inductive SuppResp where
  | raise (e : String)
  | listResp (n : ℕ) (payload : ℕ)
  | dictResp (resultTrue : Bool) (errorCode : Option String) (msg : String) (payload : ℕ)
  | otherResp (payload : ℕ)
deriving DecidableEq, Repr

/-- What `_get_user_assets_supplement` returns: the dict itself
(result-true case) or the wrapper `{"result": True, "data": data}`. -/
inductive SuppReturn where
  | direct (payload : ℕ)
  | wrapped (payload : ℕ)
deriving DecidableEq, Repr

/-- `LBankService._get_user_assets_supplement` (manual-HTTP path): loop over
the hosts accumulating per-host error strings; a non-empty list returns
wrapped (and an empty list also falls through to the final wrapped return,
line 645); a result-true dict returns directly; a dict with a truthy
`error_code` records the error and moves on; anything else returns wrapped;
after all hosts fail, raise the single aggregated error. -/
def getUserAssetsSupplement (hosts : List (String × SuppResp)) :
    Except FetchErr SuppReturn :=
  go hosts []
where
  go : List (String × SuppResp) → List String → Except FetchErr SuppReturn
    | [], errs => .error (.aggregated "Failed to fetch user assets" errs)
    | (host, resp) :: rest, errs =>
        match resp with
        | .raise e => go rest (errs ++ [host ++ ": " ++ e])
        | .listResp n payload =>
            -- `len(data) > 0` returns wrapped at line 629; an empty list
            -- falls past both isinstance checks to the same wrapped return.
            if 0 < n then .ok (.wrapped payload) else .ok (.wrapped payload)
        | .dictResp resultTrue errorCode msg payload =>
            if resultTrue then .ok (.direct payload)
            else
              match errorCode with
              | some c =>
                  if c ≠ "" then go rest (errs ++ [host ++ ": " ++ c ++ " - " ++ msg])
                  else .ok (.wrapped payload)
              | Option.none => .ok (.wrapped payload)
        | .otherResp payload => .ok (.wrapped payload)

/-- A host outcome on which the supplement loop records an error and moves
to the next host. -/
def suppFailsB : SuppResp → Bool
  | .raise _ => true
  | .dictResp resultTrue (some c) _ _ => !resultTrue && c ≠ ""
  | _ => false

/-- The error string the supplement loop records for a failing host. -/
def suppErrOf : String × SuppResp → String
  | (host, .raise e) => host ++ ": " ++ e
  | (host, .dictResp _ (some c) msg _) => host ++ ": " ++ c ++ " - " ++ msg
  | (host, _) => host

/-- The value a non-failing host makes the supplement call return
(`none` exactly on the failing outcomes). -/
def suppReturnOf : SuppResp → Option SuppReturn
  | .raise _ => Option.none
  | .listResp _ p => some (.wrapped p)
  | .dictResp true _ _ p => some (.direct p)
  | .dictResp false (some c) _ p => if c = "" then some (.wrapped p) else Option.none
  | .dictResp false Option.none _ p => some (.wrapped p)
  | .otherResp p => some (.wrapped p)

theorem supp_go_fail (host : String) (resp : SuppResp)
    (rest : List (String × SuppResp)) (errs : List String)
    (h : suppFailsB resp = true) :
    getUserAssetsSupplement.go ((host, resp) :: rest) errs =
      getUserAssetsSupplement.go rest (errs ++ [suppErrOf (host, resp)]) := by
  cases resp with
  | raise e => rfl
  | listResp n p => simp [suppFailsB] at h
  | dictResp resultTrue errorCode msg p =>
      cases errorCode with
      | none => simp [suppFailsB] at h
      | some c =>
          cases resultTrue with
          | true => simp [suppFailsB] at h
          | false =>
              simp only [suppFailsB, Bool.not_false, Bool.true_and,
                decide_eq_true_eq] at h
              simp only [getUserAssetsSupplement.go, Bool.false_eq_true, if_false,
                suppErrOf]
              rw [if_pos h]
  | otherResp p => simp [suppFailsB] at h

theorem supp_go_ok (host : String) (resp : SuppResp)
    (rest : List (String × SuppResp)) (errs : List String) {v : SuppReturn}
    (h : suppReturnOf resp = some v) :
    getUserAssetsSupplement.go ((host, resp) :: rest) errs = .ok v := by
  cases resp with
  | raise e => simp [suppReturnOf] at h
  | listResp n p =>
      cases h
      simp only [getUserAssetsSupplement.go]
      split <;> rfl
  | dictResp resultTrue errorCode msg p =>
      cases resultTrue with
      | true => cases h; rfl
      | false =>
          cases errorCode with
          | none => cases h; rfl
          | some c =>
              simp only [suppReturnOf] at h
              by_cases hc : c = ""
              · rw [if_pos hc] at h
                cases h
                simp only [getUserAssetsSupplement.go, Bool.false_eq_true, if_false]
                rw [if_neg (by simpa using hc)]
              · rw [if_neg hc] at h
                cases h
  | otherResp p => cases h; rfl

theorem supp_go_all_fail (hosts : List (String × SuppResp)) :
    ∀ (errs : List String), (∀ x ∈ hosts, suppFailsB x.2 = true) →
      getUserAssetsSupplement.go hosts errs =
        .error (.aggregated "Failed to fetch user assets" (errs ++ hosts.map suppErrOf)) := by
  induction hosts with
  | nil => intro errs _; simp [getUserAssetsSupplement.go]
  | cons x rest ih =>
      intro errs hall
      obtain ⟨host, resp⟩ := x
      rw [supp_go_fail host resp rest errs (hall _ (List.mem_cons_self _ _)),
        ih _ (fun y hy => hall y (List.mem_cons_of_mem _ hy))]
      simp only [List.map_cons, List.append_assoc, List.singleton_append]

/-- Outcome of one HTTP attempt inside `_post_contract_signed`
(`max_retries = 3` attempts per host). -/
inductive AttemptRes where
  | succeed (payload : ℕ)
  | timeout
  | exc (e : String)
deriving DecidableEq, Repr

/-- The three attempt outcomes the environment holds for one contract host. -/
structure HostAttempts where
  a0 : AttemptRes
  a1 : AttemptRes
  a2 : AttemptRes
deriving DecidableEq, Repr

/-- The attempt loop of `_post_contract_signed` against one host (lines
287-321): return the first successful attempt's payload; otherwise report how
the host was given up — `.error (some e)` when the final attempt raised `e`
(`last_error = exc`, line 310), `.error none` when the final attempt timed
out (`last_error = None`, line 307).  Intermediate `last_error` assignments
are always overwritten by the final attempt's handler, so only the final
attempt determines the reported value. -/
def runHostAttempts (h : HostAttempts) : Except (Option String) ℕ :=
  match h.a0 with
  | .succeed p => .ok p
  | _ =>
      match h.a1 with
      | .succeed p => .ok p
      | _ =>
          match h.a2 with
          | .succeed p => .ok p
          | .timeout => .error Option.none
          | .exc e => .error (some e)

/-- `LBankService._post_contract_signed`: try each host in order (3 attempts
each); after exhausting all hosts, `raise last_error` if the last failing
host left an exception, else `raise Exception("Contract API: all hosts
unreachable")` (lines 323-325). -/
def postContractSigned (hosts : List HostAttempts) : Except FetchErr ℕ :=
  go hosts Option.none
where
  go : List HostAttempts → Option String → Except FetchErr ℕ
    | [], lastError =>
        match lastError with
        | some e => .error (.bare e)
        | Option.none => .error .allHostsUnreachable
    | h :: rest, _ =>
        match runHostAttempts h with
        | .ok p => .ok p
        | .error newLast => go rest newLast

theorem contract_go_ok {h : HostAttempts} {p : ℕ}
    (hok : runHostAttempts h = .ok p) (rest : List HostAttempts)
    (lastError : Option String) :
    postContractSigned.go (h :: rest) lastError = .ok p := by
  simp only [postContractSigned.go, hok]

theorem contract_go_skip {h : HostAttempts} {x : Option String}
    (hfail : runHostAttempts h = .error x) (rest : List HostAttempts)
    (lastError : Option String) :
    postContractSigned.go (h :: rest) lastError = postContractSigned.go rest x := by
  simp only [postContractSigned.go, hfail]

/-- After every host fails, the raised error is determined by the LAST
host's final attempt alone. -/
theorem contract_all_fail (init : List HostAttempts) (last : HostAttempts)
    {x : Option String} (hlast : runHostAttempts last = .error x)
    (hinit : ∀ h ∈ init, ¬ (runHostAttempts h).isOk = true) :
    ∀ lastError, postContractSigned.go (init ++ [last]) lastError =
      (match x with
        | some e => .error (.bare e)
        | Option.none => .error .allHostsUnreachable) := by
  induction init with
  | nil =>
      intro lastError
      rw [List.nil_append, contract_go_skip hlast]
      cases x <;> rfl
  | cons h rest ih =>
      intro lastError
      have hh := hinit h (List.mem_cons_self _ _)
      rcases hres : runHostAttempts h with y | p
      · rw [List.cons_append, contract_go_skip hres]
        exact ih (fun z hz => hinit z (List.mem_cons_of_mem _ hz)) y
      · rw [hres] at hh; simp [Except.isOk, Except.toBool] at hh

/-- C3 as stated is false for `_post_contract_signed`: with two hosts whose
attempts all raise (`errA` on the first, `errB` on the second), the call
raises the bare exception of the last host alone — not an error aggregating
the failure reason of every host attempted. -/
theorem c3_counterexample :
    postContractSigned
        [⟨.exc "errA", .exc "errA", .exc "errA"⟩,
          ⟨.exc "errB", .exc "errB", .exc "errB"⟩]
      = .error (.bare "errB") ∧ (FetchErr.bare "errB").isAggregated = false := by
  exact ⟨rfl, rfl⟩

theorem supp_go_after_failures (host : String) (resp : SuppResp)
    (rest : List (String × SuppResp)) {v : SuppReturn}
    (hok : suppReturnOf resp = some v) :
    ∀ (failing : List (String × SuppResp)) (errs : List String),
      (∀ x ∈ failing, suppFailsB x.2 = true) →
      getUserAssetsSupplement.go (failing ++ (host, resp) :: rest) errs = .ok v := by
  intro failing
  induction failing with
  | nil => intro errs _; exact supp_go_ok host resp rest errs hok
  | cons x fl ih =>
      intro errs hfail
      obtain ⟨h1, r1⟩ := x
      rw [List.cons_append,
        supp_go_fail h1 r1 _ _ (hfail _ (List.mem_cons_self _ _))]
      exact ih _ (fun y hy => hfail y (List.mem_cons_of_mem _ hy))

theorem contract_go_after_failures (h : HostAttempts) (rest : List HostAttempts)
    {p : ℕ} (hok : runHostAttempts h = .ok p) :
    ∀ (failing : List HostAttempts) (lastError : Option String),
      (∀ x ∈ failing, ¬ (runHostAttempts x).isOk = true) →
      postContractSigned.go (failing ++ h :: rest) lastError = .ok p := by
  intro failing
  induction failing with
  | nil => intro lastError _; exact contract_go_ok hok rest lastError
  | cons y fl ih =>
      intro lastError hfail
      have hy := hfail y (List.mem_cons_self _ _)
      rcases hres : runHostAttempts y with x | q
      · rw [List.cons_append, contract_go_skip hres]
        exact ih _ (fun z hz => hfail z (List.mem_cons_of_mem _ hz))
      · rw [hres] at hy; simp [Except.isOk, Except.toBool] at hy

/-- C3 amended: failover itself works in both signed fetchers — when every
host before some host fails and that host succeeds, the call returns that
host's result with no exception.  On total failure, however, only
`_get_user_assets_supplement` raises the single error aggregating each
attempted host's failure reason; `_post_contract_signed` instead re-raises
the bare exception of the last host's final failed attempt (or a generic
"all hosts unreachable" error when that final attempt was a timeout). -/
theorem c3_failover_amended :
    (∀ (failing : List (String × SuppResp)) (host : String) (resp : SuppResp)
        (rest : List (String × SuppResp)) (v : SuppReturn),
      (∀ x ∈ failing, suppFailsB x.2 = true) → suppReturnOf resp = some v →
        getUserAssetsSupplement (failing ++ (host, resp) :: rest) = .ok v) ∧
    (∀ (hosts : List (String × SuppResp)), (∀ x ∈ hosts, suppFailsB x.2 = true) →
      getUserAssetsSupplement hosts =
        .error (.aggregated "Failed to fetch user assets" (hosts.map suppErrOf))) ∧
    (∀ (failing : List HostAttempts) (h : HostAttempts) (rest : List HostAttempts)
        (p : ℕ),
      (∀ x ∈ failing, ¬ (runHostAttempts x).isOk = true) → runHostAttempts h = .ok p →
        postContractSigned (failing ++ h :: rest) = .ok p) ∧
    (∀ (init : List HostAttempts) (last : HostAttempts) (x : Option String),
      runHostAttempts last = .error x →
        (∀ h ∈ init, ¬ (runHostAttempts h).isOk = true) →
          postContractSigned (init ++ [last]) =
            (match x with
              | some e => .error (.bare e)
              | Option.none => .error .allHostsUnreachable)) := by
  refine ⟨?_, ?_, ?_, ?_⟩
  · intro failing host resp rest v hfail hok
    exact supp_go_after_failures host resp rest hok failing [] hfail
  · intro hosts hall
    unfold getUserAssetsSupplement
    simpa using supp_go_all_fail hosts [] hall
  · intro failing h rest p hfail hok
    exact contract_go_after_failures h rest hok failing Option.none hfail
  · intro init last x hlast hinit
    have := contract_all_fail init last hlast hinit Option.none
    unfold postContractSigned
    rw [this]
    cases x <;> rfl

/-- Witness for C3 (amended): host A fails every attempt with a transport
error, host B succeeds on its first attempt; both fetchers return B's
result.  On total failure the supplement error aggregates both hosts'
reasons. -/
theorem c3_witness :
    getUserAssetsSupplement
        [("hostA", .raise "timeout"), ("hostB", .dictResp true Option.none "" 7)]
      = .ok (.direct 7) ∧
    postContractSigned
        [⟨.exc "down", .exc "down", .exc "down"⟩, ⟨.succeed 9, .timeout, .timeout⟩]
      = .ok 9 ∧
    getUserAssetsSupplement
        [("hostA", .raise "timeout"), ("hostB", .raise "refused")]
      = .error (.aggregated "Failed to fetch user assets"
          ["hostA: timeout", "hostB: refused"]) := by
  refine ⟨?_, ?_, ?_⟩
  · exact c3_failover_amended.1 [("hostA", .raise "timeout")] "hostB"
      (.dictResp true Option.none "" 7) [] (.direct 7) (by decide) rfl
  · exact c3_failover_amended.2.2.1 [⟨.exc "down", .exc "down", .exc "down"⟩]
      ⟨.succeed 9, .timeout, .timeout⟩ [] 9 (by decide) rfl
  · exact c3_failover_amended.2.1
      [("hostA", .raise "timeout"), ("hostB", .raise "refused")] (by decide)

/-! ## Request signing (`LBankService._sign_params_hmac`)

The hash primitives (`hashlib.md5`, `hmac`/SHA-256) are Python-library
calls, modelled as function parameters; the collision-freeness of their
composition (overwhelmingly true of the real primitives) is an explicit
hypothesis where a property needs it.  Parameter values are the strings
`f"{k}={v}"` interpolates. -/

theorem charsLe_total : ∀ (a b : List Char), charsLe a b = true ∨ charsLe b a = true
  | [], _ => by
      left; cases ‹List Char› <;> rfl
  | _ :: _, [] => by right; rfl
  | x :: xs, y :: ys => by
      by_cases hxy : x = y
      · subst hxy
        simp only [charsLe, if_pos rfl]
        exact charsLe_total xs ys
      · rcases lt_trichotomy x y with h | h | h
        · left; simp [charsLe, if_neg hxy, h]
        · exact absurd h hxy
        · right; simp [charsLe, if_neg (Ne.symm hxy), h]

theorem charsLe_trans : ∀ {a b c : List Char},
    charsLe a b = true → charsLe b c = true → charsLe a c = true
  | [], _, _, _, _ => by cases ‹List Char› <;> rfl
  | _ :: _, [], _, h, _ => by simp [charsLe] at h
  | _ :: _, _ :: _, [], _, h => by simp [charsLe] at h
  | x :: xs, y :: ys, z :: zs, hab, hbc => by
      by_cases hxy : x = y <;> by_cases hyz : y = z
      · subst hxy; subst hyz
        simp only [charsLe, if_pos rfl] at hab hbc ⊢
        exact charsLe_trans hab hbc
      · subst hxy
        simp only [charsLe, if_pos rfl, if_neg hyz, decide_eq_true_eq] at hab hbc ⊢
        exact hbc
      · subst hyz
        simp only [charsLe, if_neg hxy, decide_eq_true_eq] at hab ⊢
        exact hab
      · simp only [charsLe, if_neg hxy, if_neg hyz, decide_eq_true_eq] at hab hbc
        have hxz : x < z := lt_trans hab hbc
        simp [charsLe, if_neg (ne_of_lt hxz), hxz]

theorem charsLe_antisymm : ∀ {a b : List Char},
    charsLe a b = true → charsLe b a = true → a = b
  | [], [], _, _ => rfl
  | [], _ :: _, _, h => by simp [charsLe] at h
  | _ :: _, [], h, _ => by simp [charsLe] at h
  | x :: xs, y :: ys, hab, hba => by
      by_cases hxy : x = y
      · subst hxy
        simp only [charsLe, if_pos rfl] at hab hba
        rw [charsLe_antisymm hab hba]
      · simp only [charsLe, if_neg hxy, if_neg (Ne.symm hxy),
          decide_eq_true_eq] at hab hba
        exact absurd hba (lt_asymm hab)

theorem strLeB_total (a b : String) : strLeB a b = true ∨ strLeB b a = true :=
  charsLe_total a.data b.data

theorem strLeB_trans {a b c : String} (h1 : strLeB a b = true)
    (h2 : strLeB b c = true) : strLeB a c = true :=
  charsLe_trans h1 h2

theorem strLeB_antisymm {a b : String} (h1 : strLeB a b = true)
    (h2 : strLeB b a = true) : a = b :=
  String.ext (charsLe_antisymm h1 h2)

/-- Python tuple comparison `(k1, v1) <= (k2, v2)`: equal keys compare the
values, distinct keys compare the keys (where `<=` and `<` coincide). -/
def pairLe (a b : String × String) : Prop :=
  (if a.1 = b.1 then strLeB a.2 b.2 else strLeB a.1 b.1) = true

instance : DecidableRel pairLe := fun a b => by unfold pairLe; infer_instance

instance : IsTotal (String × String) pairLe where
  total a b := by
    unfold pairLe
    by_cases h : a.1 = b.1
    · rw [if_pos h, if_pos h.symm]
      exact strLeB_total a.2 b.2
    · rw [if_neg h, if_neg (Ne.symm h)]
      exact strLeB_total a.1 b.1

instance : IsTrans (String × String) pairLe where
  trans a b c := by
    unfold pairLe
    by_cases hab : a.1 = b.1 <;> by_cases hbc : b.1 = c.1
    · rw [if_pos hab, if_pos hbc, if_pos (hab.trans hbc)]
      exact strLeB_trans
    · rw [if_pos hab, if_neg hbc, if_neg (hab ▸ hbc)]
      intro _ h2
      rw [hab]
      exact h2
    · rw [if_neg hab, if_pos hbc, if_neg (hbc ▸ hab)]
      intro h1 _
      rw [← hbc]
      exact h1
    · intro h1 h2
      rw [if_neg hab] at h1
      rw [if_neg hbc] at h2
      have hac := strLeB_trans h1 h2
      by_cases h : a.1 = c.1
      · exact absurd (h ▸ strLeB_antisymm h2 (h ▸ h1) : b.1 = a.1).symm hab
      · rw [if_neg h]; exact hac

instance : IsAntisymm (String × String) pairLe where
  antisymm a b := by
    unfold pairLe
    by_cases h : a.1 = b.1
    · rw [if_pos h, if_pos h.symm]
      intro h1 h2
      exact Prod.ext h (strLeB_antisymm h1 h2)
    · rw [if_neg h, if_neg (Ne.symm h)]
      intro h1 h2
      exact absurd (strLeB_antisymm h1 h2) h

/-- Spec §4.2 step (2): sort by key, ascending. -/
def keyLe (a b : String × String) : Prop := strLeB a.1 b.1 = true

instance : DecidableRel keyLe := fun a b => by unfold keyLe; infer_instance

instance : IsTotal (String × String) keyLe where
  total a b := strLeB_total a.1 b.1

instance : IsTrans (String × String) keyLe where
  trans _ _ _ := strLeB_trans

/-- Strict key order: the relation under which a sorted list of
distinct-key pairs is unique. -/
def strictKeyLt (a b : String × String) : Prop :=
  strLeB a.1 b.1 = true ∧ a.1 ≠ b.1

instance : IsAntisymm (String × String) strictKeyLt where
  antisymm a b h1 h2 := absurd (strLeB_antisymm h1.1 h2.1) h1.2

/-- `f"{k}={v}"`. -/
def itemAmp (kv : String × String) : String := kv.1 ++ "=" ++ kv.2

/-- `'&'.join(f"{k}={v}" for k, v in sorted_params)`. -/
def joinAmp : List (String × String) → String
  | [] => ""
  | [kv] => itemAmp kv
  | kv :: rest => itemAmp kv ++ "&" ++ joinAmp rest

/-- `LBankService._sign_params_hmac`: drop `'sign'`, sort the remaining
parameters as Python `sorted` does (tuple order), join as `key=value` with
`'&'`, MD5 (uppercase hex) then HMAC-SHA256 keyed by the secret.  Python's
`sorted` (a stable comparison sort) is modelled by `List.insertionSort`
under the same total order. -/
def signParamsHmac (md5UpperHex : String → String)
    (hmacSha256Hex : String → String → String)
    (params : List (String × String)) (secretKey : String) : String :=
  let sortedParams := List.insertionSort pairLe (params.filter (fun kv => kv.1 ≠ "sign"))
  let paramStr := joinAmp sortedParams
  let md5Hash := md5UpperHex paramStr
  hmacSha256Hex secretKey md5Hash

/-- The §4.2 algorithm, written from the spec's words: (1) drop any existing
`sign` key; (2) sort the remaining parameters by key, ascending; (3) join as
`key=value` pairs with `&`; (4) uppercase-hex MD5 of that string; (5) hex
HMAC-SHA256 of that digest keyed by the secret. -/
def signReference (md5UpperHex : String → String)
    (hmacSha256Hex : String → String → String)
    (params : List (String × String)) (secretKey : String) : String :=
  hmacSha256Hex secretKey
    (md5UpperHex
      (joinAmp (List.insertionSort keyLe (params.filter (fun kv => kv.1 ≠ "sign")))))

/-- String-level middle cancellation. -/
theorem strAppend_cancel {pre suf v v' : String}
    (h : pre ++ v ++ suf = pre ++ v' ++ suf) : v = v' := by
  have hd : pre.data ++ v.data ++ suf.data = pre.data ++ v'.data ++ suf.data := by
    have := congrArg String.data h
    simpa [String.data_append] using this
  rw [List.append_assoc, List.append_assoc] at hd
  exact String.ext (List.append_cancel_right (List.append_cancel_left hd))

/-- String-level left cancellation. -/
theorem strAppend_cancel_left {pre s1 s2 : String}
    (h : pre ++ s1 = pre ++ s2) : s1 = s2 := by
  have hd : pre.data ++ s1.data = pre.data ++ s2.data := by
    have := congrArg String.data h
    simpa [String.data_append] using this
  exact String.ext (List.append_cancel_left hd)

theorem joinAmp_cons_of_ne_nil (kv : String × String) (l : List (String × String))
    (h : l ≠ []) : joinAmp (kv :: l) = itemAmp kv ++ "&" ++ joinAmp l := by
  cases l with
  | nil => exact absurd rfl h
  | cons x xs => rfl

/-- Mutating exactly one value in a pair list changes the joined string. -/
theorem joinAmp_value_injective :
    ∀ (A : List (String × String)) {B : List (String × String)} {k v v' : String},
      joinAmp (A ++ (k, v) :: B) = joinAmp (A ++ (k, v') :: B) → v = v' := by
  intro A
  induction A with
  | nil =>
      intro B k v v' h
      cases B with
      | nil =>
          simp only [List.nil_append, joinAmp, itemAmp] at h
          have : (k ++ "=") ++ v ++ "" = (k ++ "=") ++ v' ++ "" := by
            simpa [String.append_assoc] using h
          exact strAppend_cancel this
      | cons b bs =>
          simp only [List.nil_append] at h
          rw [joinAmp_cons_of_ne_nil (k, v) (b :: bs) (by simp),
            joinAmp_cons_of_ne_nil (k, v') (b :: bs) (by simp)] at h
          simp only [itemAmp] at h
          have : (k ++ "=") ++ v ++ ("&" ++ joinAmp (b :: bs))
              = (k ++ "=") ++ v' ++ ("&" ++ joinAmp (b :: bs)) := by
            simpa [String.append_assoc] using h
          exact strAppend_cancel this
  | cons a A ih =>
      intro B k v v' h
      rw [List.cons_append, List.cons_append,
        joinAmp_cons_of_ne_nil a (A ++ (k, v) :: B) (by simp),
        joinAmp_cons_of_ne_nil a (A ++ (k, v') :: B) (by simp)] at h
      have : (itemAmp a ++ "&") ++ joinAmp (A ++ (k, v) :: B)
          = (itemAmp a ++ "&") ++ joinAmp (A ++ (k, v') :: B) := by
        simpa [String.append_assoc] using h
      exact ih (strAppend_cancel_left this)

/-- On a list with pairwise-distinct keys, any `pairLe`-sorted order is
strictly increasing in the keys. -/
theorem sorted_strictKey_of_pairLe {l : List (String × String)}
    (hs : List.Sorted pairLe l) (hn : (l.map Prod.fst).Nodup) :
    List.Sorted strictKeyLt l := by
  have hkeys : List.Pairwise (fun a b : String × String => a.1 ≠ b.1) l :=
    List.pairwise_map.mp hn
  refine (hs.and hkeys).imp ?_
  intro a b hab
  obtain ⟨h1, h2⟩ := hab
  unfold pairLe at h1
  rw [if_neg h2] at h1
  exact ⟨h1, h2⟩

/-- Same statement for a `keyLe`-sorted order. -/
theorem sorted_strictKey_of_keyLe {l : List (String × String)}
    (hs : List.Sorted keyLe l) (hn : (l.map Prod.fst).Nodup) :
    List.Sorted strictKeyLt l := by
  have hkeys : List.Pairwise (fun a b : String × String => a.1 ≠ b.1) l :=
    List.pairwise_map.mp hn
  exact (hs.and hkeys).imp (fun hab => ⟨hab.1, hab.2⟩)

/-- For a distinct-key parameter list, Python's tuple sort and the spec's
sort-by-key produce the same sequence. -/
theorem insertionSort_pair_eq_key {l : List (String × String)}
    (hn : (l.map Prod.fst).Nodup) :
    List.insertionSort pairLe l = List.insertionSort keyLe l := by
  have hperm1 := List.perm_insertionSort pairLe l
  have hperm2 := List.perm_insertionSort keyLe l
  have hn1 : ((List.insertionSort pairLe l).map Prod.fst).Nodup :=
    ((hperm1.map Prod.fst).symm.nodup hn)
  have hn2 : ((List.insertionSort keyLe l).map Prod.fst).Nodup :=
    ((hperm2.map Prod.fst).symm.nodup hn)
  exact List.eq_of_perm_of_sorted (hperm1.trans hperm2.symm)
    (sorted_strictKey_of_pairLe (List.sorted_insertionSort pairLe l) hn1)
    (sorted_strictKey_of_keyLe (List.sorted_insertionSort keyLe l) hn2)

/-- Replace the value stored under key `k`. -/
def setValueAt (k v' : String) (kv : String × String) : String × String :=
  if kv.1 = k then (k, v') else kv

theorem setValueAt_fst (k v' : String) (kv : String × String) :
    (setValueAt k v' kv).1 = kv.1 := by
  unfold setValueAt
  split
  · rename_i h; rw [h]
  · rfl

theorem map_setValueAt_of_not_mem {k v' : String} {l : List (String × String)}
    (h : ∀ kv ∈ l, kv.1 ≠ k) : l.map (setValueAt k v') = l := by
  induction l with
  | nil => rfl
  | cons x xs ih =>
      simp only [List.map_cons]
      rw [ih (fun kv hkv => h kv (List.mem_cons_of_mem _ hkv))]
      unfold setValueAt
      rw [if_neg (h x (List.mem_cons_self _ _))]

theorem keys_not_mem_of_nodup_middle {L R : List (String × String)} {k : String}
    {w : String}
    (hn : ((L ++ (k, w) :: R).map Prod.fst).Nodup) :
    (∀ kv ∈ L, kv.1 ≠ k) ∧ (∀ kv ∈ R, kv.1 ≠ k) := by
  rw [List.map_append, List.map_cons] at hn
  have hmid := (List.nodup_middle).mp hn
  rw [List.nodup_cons] at hmid
  have hk := hmid.1
  rw [List.mem_append] at hk
  constructor
  · intro kv hkv he
    have hmem : kv.1 ∈ L.map Prod.fst := List.mem_map_of_mem Prod.fst hkv
    rw [he] at hmem
    exact hk (Or.inl hmem)
  · intro kv hkv he
    have hmem : kv.1 ∈ R.map Prod.fst := List.mem_map_of_mem Prod.fst hkv
    rw [he] at hmem
    exact hk (Or.inr hmem)

/-- Sorting is compatible with mutating the value stored under one key: with
distinct keys, the two sorted sequences coincide except at that key's slot. -/
theorem insertionSort_setValue {L R : List (String × String)} {k v v' : String}
    (hn : ((L ++ (k, v) :: R).map Prod.fst).Nodup) :
    ∃ A B, List.insertionSort pairLe (L ++ (k, v) :: R) = A ++ (k, v) :: B ∧
      List.insertionSort pairLe (L ++ (k, v') :: R) = A ++ (k, v') :: B := by
  set l := L ++ (k, v) :: R with hl
  set l2 := L ++ (k, v') :: R with hl2
  obtain ⟨hLk, hRk⟩ := keys_not_mem_of_nodup_middle hn
  have hmapl : l.map (setValueAt k v') = l2 := by
    rw [hl, hl2, List.map_append, List.map_cons,
      map_setValueAt_of_not_mem hLk, map_setValueAt_of_not_mem hRk]
    simp [setValueAt]
  have hkeys2 : (l2.map Prod.fst).Nodup := by
    have : l2.map Prod.fst = l.map Prod.fst := by
      rw [← hmapl, List.map_map]
      congr 1
      funext kv
      exact setValueAt_fst k v' kv
    rw [this]; exact hn
  set s := List.insertionSort pairLe l with hs
  have hperm : s.Perm l := List.perm_insertionSort pairLe l
  have hnods : (s.map Prod.fst).Nodup := (hperm.map Prod.fst).symm.nodup hn
  have hsorted : List.Sorted strictKeyLt s :=
    sorted_strictKey_of_pairLe (List.sorted_insertionSort pairLe l) hnods
  have hmem : (k, v) ∈ s := (hperm.mem_iff).mpr (by simp [hl])
  obtain ⟨A, B, hsAB⟩ := List.append_of_mem hmem
  obtain ⟨hAk, hBk⟩ := keys_not_mem_of_nodup_middle (hsAB ▸ hnods)
  have hmapfs : s.map (setValueAt k v') = A ++ (k, v') :: B := by
    rw [hsAB, List.map_append, List.map_cons,
      map_setValueAt_of_not_mem hAk, map_setValueAt_of_not_mem hBk]
    simp [setValueAt]
  set s2 := List.insertionSort pairLe l2 with hs2
  have hperm2 : s2.Perm l2 := List.perm_insertionSort pairLe l2
  have hnods2 : (s2.map Prod.fst).Nodup := (hperm2.map Prod.fst).symm.nodup hkeys2
  have hsorted2 : List.Sorted strictKeyLt s2 :=
    sorted_strictKey_of_pairLe (List.sorted_insertionSort pairLe l2) hnods2
  have hsortedMap : List.Sorted strictKeyLt (s.map (setValueAt k v')) := by
    apply List.pairwise_map.mpr
    refine hsorted.imp ?_
    intro a b hab
    unfold strictKeyLt at hab ⊢
    rw [setValueAt_fst, setValueAt_fst]
    exact hab
  have hpermMap : (s.map (setValueAt k v')).Perm s2 :=
    ((hperm.map (setValueAt k v')).trans (hmapl ▸ List.Perm.refl l2)).trans hperm2.symm
  have heq : s.map (setValueAt k v') = s2 :=
    List.eq_of_perm_of_sorted hpermMap hsortedMap hsorted2
  exact ⟨A, B, hsAB, by rw [← heq, hmapfs]⟩

theorem filter_keys_nodup {params : List (String × String)}
    (hn : (params.map Prod.fst).Nodup) :
    ((params.filter (fun kv => kv.1 ≠ "sign")).map Prod.fst).Nodup :=
  hn.sublist ((List.filter_sublist params).map Prod.fst)

/-- Step-by-step equality with the spec's reference algorithm, for parameter
mappings (distinct keys, as in a Python dict). -/
theorem signParamsHmac_eq_reference (md5UpperHex : String → String)
    (hmacSha256Hex : String → String → String)
    (params : List (String × String)) (secretKey : String)
    (hn : (params.map Prod.fst).Nodup) :
    signParamsHmac md5UpperHex hmacSha256Hex params secretKey
      = signReference md5UpperHex hmacSha256Hex params secretKey := by
  unfold signParamsHmac signReference
  rw [insertionSort_pair_eq_key (filter_keys_nodup hn)]

/-- Reordering the parameters never changes the signature. -/
theorem signParamsHmac_perm (md5UpperHex : String → String)
    (hmacSha256Hex : String → String → String)
    (p1 p2 : List (String × String)) (secretKey : String) (hp : p1.Perm p2) :
    signParamsHmac md5UpperHex hmacSha256Hex p1 secretKey
      = signParamsHmac md5UpperHex hmacSha256Hex p2 secretKey := by
  unfold signParamsHmac
  have hperm : (p1.filter (fun kv => kv.1 ≠ "sign")).Perm
      (p2.filter (fun kv => kv.1 ≠ "sign")) := hp.filter _
  have heq : List.insertionSort pairLe (p1.filter (fun kv => kv.1 ≠ "sign"))
      = List.insertionSort pairLe (p2.filter (fun kv => kv.1 ≠ "sign")) :=
    List.eq_of_perm_of_sorted
      (((List.perm_insertionSort pairLe _).trans hperm).trans
        (List.perm_insertionSort pairLe _).symm)
      (List.sorted_insertionSort pairLe _) (List.sorted_insertionSort pairLe _)
  rw [heq]

/-- Mutating the value of any parameter other than the dropped `sign` key
changes the signature, provided the hash composition is injective
(collision-free) on parameter strings. -/
theorem signParamsHmac_value_mutation (md5UpperHex : String → String)
    (hmacSha256Hex : String → String → String) (secretKey : String)
    (L R : List (String × String)) (k v v' : String)
    (hk : k ≠ "sign") (hn : ((L ++ (k, v) :: R).map Prod.fst).Nodup)
    (hne : v ≠ v')
    (hinj : Function.Injective (fun s => hmacSha256Hex secretKey (md5UpperHex s))) :
    signParamsHmac md5UpperHex hmacSha256Hex (L ++ (k, v) :: R) secretKey
      ≠ signParamsHmac md5UpperHex hmacSha256Hex (L ++ (k, v') :: R) secretKey := by
  intro heq
  unfold signParamsHmac at heq
  have hfil : ∀ w : String, (L ++ (k, w) :: R).filter (fun kv => kv.1 ≠ "sign")
      = (L.filter (fun kv => kv.1 ≠ "sign")) ++ (k, w) ::
          (R.filter (fun kv => kv.1 ≠ "sign")) := by
    intro w
    simp [List.filter_append, List.filter_cons, hk]
  have hnf : (((L.filter (fun kv => kv.1 ≠ "sign")) ++ (k, v) ::
      (R.filter (fun kv => kv.1 ≠ "sign"))).map Prod.fst).Nodup := by
    rw [← hfil v]
    exact filter_keys_nodup hn
  obtain ⟨A, B, h1, h2⟩ := insertionSort_setValue hnf
  rw [hfil v, hfil v', h1, h2] at heq
  exact hne (joinAmp_value_injective A (hinj heq))

/-- C5 as stated is false: the algorithm drops any existing `sign` key
before signing, so mutating the value stored under `"sign"` does NOT change
the signature (whatever the hash functions are — here concrete
collision-free stand-ins). -/
theorem c5_counterexample :
    signParamsHmac (fun s => s) (fun key msg => key ++ "|" ++ msg)
        [("sign", "x")] "secret"
      = signParamsHmac (fun s => s) (fun key msg => key ++ "|" ++ msg)
          [("sign", "y")] "secret"
    ∧ ("x" : String) ≠ "y" :=
  ⟨rfl, by decide⟩

/-- C5 amended: the signing function equals the spec's reference definition
for any parameter mapping (distinct keys); reordering the parameters never
changes the signature (determinism for identical inputs is immediate since
the function is pure); and mutating the value of any parameter OTHER THAN an
existing `sign` key — which is dropped before signing and therefore never
affects the output — changes the signature, assuming the MD5/HMAC
composition is collision-free on the parameter strings. -/
theorem c5_signing_amended :
    (∀ (md5UpperHex : String → String) (hmacSha256Hex : String → String → String)
        (params : List (String × String)) (secretKey : String),
      (params.map Prod.fst).Nodup →
        signParamsHmac md5UpperHex hmacSha256Hex params secretKey
          = signReference md5UpperHex hmacSha256Hex params secretKey) ∧
    (∀ (md5UpperHex : String → String) (hmacSha256Hex : String → String → String)
        (p1 p2 : List (String × String)) (secretKey : String), p1.Perm p2 →
      signParamsHmac md5UpperHex hmacSha256Hex p1 secretKey
        = signParamsHmac md5UpperHex hmacSha256Hex p2 secretKey) ∧
    (∀ (md5UpperHex : String → String) (hmacSha256Hex : String → String → String)
        (secretKey : String) (L R : List (String × String)) (k v v' : String),
      k ≠ "sign" → ((L ++ (k, v) :: R).map Prod.fst).Nodup → v ≠ v' →
        Function.Injective (fun s => hmacSha256Hex secretKey (md5UpperHex s)) →
          signParamsHmac md5UpperHex hmacSha256Hex (L ++ (k, v) :: R) secretKey
            ≠ signParamsHmac md5UpperHex hmacSha256Hex (L ++ (k, v') :: R) secretKey) :=
  ⟨signParamsHmac_eq_reference,
    signParamsHmac_perm,
    signParamsHmac_value_mutation⟩

theorem hmacConcatInjective :
    Function.Injective (fun s => (fun key msg : String => key ++ "|" ++ msg)
      "secret" ((fun s : String => s) s)) := by
  intro s1 s2 h
  exact strAppend_cancel_left h

/-- Witness for C5 (amended), with concrete collision-free hash stand-ins:
reference equality and reorder-invariance on `{b: 1, a: 2}`, and value
sensitivity on `{a: 1, b: 2}` vs `{a: 9, b: 2}`. -/
theorem c5_witness :
    signParamsHmac (fun s => s) (fun key msg => key ++ "|" ++ msg)
        [("b", "1"), ("a", "2")] "secret"
      = signReference (fun s => s) (fun key msg => key ++ "|" ++ msg)
          [("b", "1"), ("a", "2")] "secret" ∧
    signParamsHmac (fun s => s) (fun key msg => key ++ "|" ++ msg)
        [("b", "1"), ("a", "2")] "secret"
      = signParamsHmac (fun s => s) (fun key msg => key ++ "|" ++ msg)
          [("a", "2"), ("b", "1")] "secret" ∧
    signParamsHmac (fun s => s) (fun key msg => key ++ "|" ++ msg)
        [("a", "1"), ("b", "2")] "secret"
      ≠ signParamsHmac (fun s => s) (fun key msg => key ++ "|" ++ msg)
          [("a", "9"), ("b", "2")] "secret" := by
  refine ⟨?_, ?_, ?_⟩
  · exact c5_signing_amended.1 _ _ [("b", "1"), ("a", "2")] "secret" (by decide)
  · exact c5_signing_amended.2.1 _ _ [("b", "1"), ("a", "2")] [("a", "2"), ("b", "1")]
      "secret" (by decide)
  · exact c5_signing_amended.2.2 _ _ "secret" [] [("b", "2")] "a" "1" "9"
      (by decide) (by decide) (by decide) hmacConcatInjective

/-! ## Rate limiter (`RateLimiter.wait_if_needed`)

Sequential (back-to-back) admission calls; the wall clock is explicit.  Time
reads are idealized: the purge, the sleep arithmetic and the appended
timestamp use the same clock value (the code re-reads `time.time()`, which
can only be later — a later append timestamp only shrinks every window
count, so the idealization does not hide a violation). -/

/-- The purge loop: `while requests and requests[0] < now - window: popleft()`. -/
def purgeExpired (windowSeconds now : ℚ) (requests : List ℚ) : List ℚ :=
  requests.dropWhile (fun t => decide (t < now - windowSeconds))

/-- `RateLimiter.wait_if_needed`: purge, then — if at the ceiling — sleep
`windowSeconds - (now - oldest) + 0.1` and re-purge, and finally append the
admission timestamp.  Returns the new deque and the admission timestamp.
(The `[]` branch under the ceiling check is unreachable when
`1 ≤ maxRequests`; Python would raise `IndexError` there.) -/
def waitIfNeeded (maxRequests : ℕ) (windowSeconds : ℚ) (requests : List ℚ)
    (now : ℚ) : List ℚ × ℚ :=
  let requests1 := purgeExpired windowSeconds now requests
  if maxRequests ≤ requests1.length then
    match requests1 with
    | [] => (requests1 ++ [now], now)
    | oldest :: _ =>
        let sleepTime := windowSeconds - (now - oldest) + 1/10
        if 0 < sleepTime then
          let now2 := now + sleepTime
          let requests2 := purgeExpired windowSeconds now2 requests1
          (requests2 ++ [now2], now2)
        else
          (requests1 ++ [now], now)
  else
    (requests1 ++ [now], now)

/-- Run a back-to-back sequence of admission calls: each call starts `d`
seconds (`d ≥ 0`) after the previous call finished.  Returns the final
deque, the final clock, and the list of admission timestamps. -/
def runLimiter (maxRequests : ℕ) (windowSeconds : ℚ) :
    List ℚ → ℚ → List ℚ → List ℚ × ℚ × List ℚ
  | requests, tcur, [] => (requests, tcur, [])
  | requests, tcur, d :: ds =>
      let now := tcur + d
      let step := waitIfNeeded maxRequests windowSeconds requests now
      let rest := runLimiter maxRequests windowSeconds step.1 step.2 ds
      (rest.1, rest.2.1, step.2 :: rest.2.2)

/-- The number of admitted timestamps inside the closed sliding window
`[t - windowSeconds, t]`. -/
def windowCount (windowSeconds : ℚ) (admitted : List ℚ) (t : ℚ) : ℕ :=
  admitted.countP (fun s => decide (t - windowSeconds ≤ s) && decide (s ≤ t))

theorem dropWhile_head_false {α : Type} (p : α → Bool) :
    ∀ {l : List α} {a : α} {l' : List α}, l.dropWhile p = a :: l' → p a = false := by
  intro l
  induction l with
  | nil => intro a l' h; cases h
  | cons x xs ih =>
      intro a l' h
      by_cases hx : p x = true
      · rw [List.dropWhile_cons_of_pos hx] at h; exact ih h
      · rw [List.dropWhile_cons_of_neg hx] at h
        cases h
        exact Bool.eq_false_iff.mpr hx

/-- Characterization of one admission call: the deque splits into a purged
part (all strictly older than the final window) and a kept part, the
admission timestamp is not earlier than the call time, and after a full
deque the kept part has strictly fewer than `maxRequests` entries, so the
deque never exceeds `maxRequests` after the append. -/
theorem waitIfNeeded_spec (maxRequests : ℕ) (windowSeconds : ℚ)
    (hmax : 1 ≤ maxRequests) (requests : List ℚ) (now : ℚ)
    (hlen : requests.length ≤ maxRequests) :
    ∃ (purged kept : List ℚ) (admitTime : ℚ),
      waitIfNeeded maxRequests windowSeconds requests now = (kept ++ [admitTime], admitTime) ∧
      requests = purged ++ kept ∧
      now ≤ admitTime ∧
      (∀ s ∈ purged, s < admitTime - windowSeconds) ∧
      kept.length + 1 ≤ maxRequests := by
  have hsplit1 : requests.takeWhile (fun t => decide (t < now - windowSeconds)) ++
      purgeExpired windowSeconds now requests = requests :=
    List.takeWhile_append_dropWhile _ _
  have htake1 : ∀ s ∈ requests.takeWhile (fun t => decide (t < now - windowSeconds)),
      s < now - windowSeconds := by
    intro s hs
    simpa using List.mem_takeWhile_imp hs
  have hlen1 : (purgeExpired windowSeconds now requests).length ≤ requests.length :=
    (List.dropWhile_sublist _).length_le
  unfold waitIfNeeded
  by_cases hlim : maxRequests ≤ (purgeExpired windowSeconds now requests).length
  · rw [if_pos hlim]
    rcases hreqs1 : purgeExpired windowSeconds now requests with _ | ⟨oldest, rest⟩
    · rw [hreqs1] at hlim
      simp at hlim
      omega
    · have holdest : ¬ (oldest < now - windowSeconds) := by
        have := dropWhile_head_false (fun t => decide (t < now - windowSeconds)) hreqs1
        simpa using this
      have hsleep : 0 < windowSeconds - (now - oldest) + 1/10 := by
        have : now - windowSeconds ≤ oldest := not_lt.mp holdest
        linarith
      dsimp only
      rw [if_pos hsleep]
      set now2 := now + (windowSeconds - (now - oldest) + 1/10) with hnow2
      have hcut : now2 - windowSeconds = oldest + 1/10 := by rw [hnow2]; ring
      have holdest2 : (fun t => decide (t < now2 - windowSeconds)) oldest = true := by
        simp only [decide_eq_true_eq, hcut]
        linarith
      have hkept : purgeExpired windowSeconds now2 (oldest :: rest)
          = purgeExpired windowSeconds now2 rest := by
        unfold purgeExpired
        rw [List.dropWhile_cons]
        simp only [decide_eq_true_eq, hcut]
        rw [if_pos (by linarith : oldest < oldest + 1/10)]
      have hsplit2 : rest.takeWhile (fun t => decide (t < now2 - windowSeconds)) ++
          purgeExpired windowSeconds now2 rest = rest :=
        List.takeWhile_append_dropWhile _ _
      have htake2 : ∀ s ∈ rest.takeWhile (fun t => decide (t < now2 - windowSeconds)),
          s < now2 - windowSeconds := by
        intro s hs
        simpa using List.mem_takeWhile_imp hs
      refine ⟨requests.takeWhile (fun t => decide (t < now - windowSeconds)) ++
        (oldest :: rest.takeWhile (fun t => decide (t < now2 - windowSeconds))),
        purgeExpired windowSeconds now2 rest, now2, ?_, ?_, ?_, ?_, ?_⟩
      · rw [hkept]
      · rw [List.append_assoc, List.cons_append, hsplit2, ← hreqs1, hsplit1]
      · have : (0:ℚ) < windowSeconds - (now - oldest) + 1/10 := hsleep
        rw [hnow2]; linarith
      · intro s hs
        rcases List.mem_append.mp hs with h1 | h1
        · have := htake1 s h1
          have hmono : now - windowSeconds ≤ now2 - windowSeconds := by
            rw [hnow2]; linarith
          linarith
        · rcases List.mem_cons.mp h1 with rfl | h2
          · rw [hcut]; linarith
          · exact htake2 s h2
      · have hrl : (oldest :: rest).length ≤ requests.length := by
          rw [← hreqs1]; exact hlen1
        have hkl : (purgeExpired windowSeconds now2 rest).length ≤ rest.length :=
          (List.dropWhile_sublist _).length_le
        simp only [List.length_cons] at hrl
        omega
  · rw [if_neg hlim]
    refine ⟨requests.takeWhile (fun t => decide (t < now - windowSeconds)),
      purgeExpired windowSeconds now requests, now, rfl, hsplit1.symm, le_refl now,
      ?_, ?_⟩
    · intro s hs
      exact htake1 s hs
    · omega

theorem runLimiter_window_safe (maxRequests : ℕ) (windowSeconds : ℚ)
    (hmax : 1 ≤ maxRequests) (hw : 0 < windowSeconds) :
    ∀ (deltas dropped requests : List ℚ) (tcur : ℚ),
      (∀ d ∈ deltas, 0 ≤ d) →
      (∀ s ∈ dropped, s < tcur - windowSeconds) →
      (∀ s ∈ requests, s ≤ tcur) →
      requests.length ≤ maxRequests →
      (∀ t, windowCount windowSeconds (dropped ++ requests) t ≤ maxRequests) →
      ∀ t, windowCount windowSeconds
          ((dropped ++ requests) ++
            (runLimiter maxRequests windowSeconds requests tcur deltas).2.2) t
        ≤ maxRequests := by
  intro deltas
  induction deltas with
  | nil =>
      intro dropped requests tcur _ _ _ _ hbase t
      simpa [runLimiter] using hbase t
  | cons d ds ih =>
      intro dropped requests tcur hd hdrop hreq hlen hbase t
      have hd0 : 0 ≤ d := hd d (List.mem_cons_self _ _)
      obtain ⟨purged, kept, admitTime, heq, hsplit, hnowle, hpurged, hkl⟩ :=
        waitIfNeeded_spec maxRequests windowSeconds hmax requests (tcur + d) hlen
      have htle : tcur ≤ admitTime := le_trans (by linarith) hnowle
      have hrun : (runLimiter maxRequests windowSeconds requests tcur (d :: ds)).2.2
          = admitTime ::
            (runLimiter maxRequests windowSeconds (kept ++ [admitTime]) admitTime ds).2.2 := by
        simp only [runLimiter, heq]
      rw [hrun]
      have hrearr : (dropped ++ requests) ++ admitTime ::
            (runLimiter maxRequests windowSeconds (kept ++ [admitTime]) admitTime ds).2.2
          = ((dropped ++ purged) ++ (kept ++ [admitTime])) ++
            (runLimiter maxRequests windowSeconds (kept ++ [admitTime]) admitTime ds).2.2 := by
        rw [hsplit]
        simp [List.append_assoc]
      rw [hrearr]
      have hdrop2 : ∀ s ∈ dropped ++ purged, s < admitTime - windowSeconds := by
        intro s hs
        rcases List.mem_append.mp hs with h1 | h1
        · have := hdrop s h1
          linarith
        · exact hpurged s h1
      have hmemkept : ∀ s ∈ kept, s ∈ requests := by
        intro s hs
        rw [hsplit]
        exact List.mem_append.mpr (Or.inr hs)
      have hreq2 : ∀ s ∈ kept ++ [admitTime], s ≤ admitTime := by
        intro s hs
        rcases List.mem_append.mp hs with h1 | h1
        · exact le_trans (hreq s (hmemkept s h1)) htle
        · rw [List.mem_singleton.mp h1]
      have hlen2 : (kept ++ [admitTime]).length ≤ maxRequests := by
        rw [List.length_append, List.length_singleton]
        exact hkl
      have hbase2 : ∀ u, windowCount windowSeconds
          ((dropped ++ purged) ++ (kept ++ [admitTime])) u ≤ maxRequests := by
        intro u
        have hlist : (dropped ++ purged) ++ (kept ++ [admitTime])
            = ((dropped ++ requests) ++ [admitTime]) := by
          rw [hsplit]
          simp [List.append_assoc]
        rw [hlist]
        unfold windowCount
        rw [List.countP_append]
        by_cases hin : (u - windowSeconds ≤ admitTime ∧ admitTime ≤ u)
        · have hsingle : List.countP
              (fun s => decide (u - windowSeconds ≤ s) && decide (s ≤ u)) [admitTime] ≤ 1 :=
            List.countP_le_length _
          have hold : List.countP
              (fun s => decide (u - windowSeconds ≤ s) && decide (s ≤ u))
              (dropped ++ requests) ≤ kept.length := by
            have hlist2 : dropped ++ requests = (dropped ++ purged) ++ kept := by
              rw [hsplit]
              simp [List.append_assoc]
            rw [hlist2, List.countP_append]
            have hz : List.countP
                (fun s => decide (u - windowSeconds ≤ s) && decide (s ≤ u))
                (dropped ++ purged) = 0 := by
              rw [List.countP_eq_zero]
              intro s hs
              simp only [Bool.and_eq_true, decide_eq_true_eq, not_and]
              intro hle
              exact absurd hle (not_le.mpr (by
                have := hdrop2 s hs
                linarith [hin.2]))
            rw [hz, Nat.zero_add]
            exact List.countP_le_length _
          omega
        · have hz1 : List.countP
              (fun s => decide (u - windowSeconds ≤ s) && decide (s ≤ u)) [admitTime] = 0 := by
            rw [List.countP_eq_zero]
            intro s hs
            rw [List.mem_singleton.mp hs]
            simp only [Bool.and_eq_true, decide_eq_true_eq, not_and]
            intro h1 h2
            exact hin ⟨h1, h2⟩
          rw [hz1, Nat.add_zero]
          exact hbase u
      exact ih (dropped ++ purged) (kept ++ [admitTime]) admitTime
        (fun x hx => hd x (List.mem_cons_of_mem _ hx)) hdrop2 hreq2 hlen2 hbase2 t

/-- C4: for every back-to-back sequence of admission calls, no closed sliding
window of duration `windowSeconds` ever contains more than `maxRequests`
admitted timestamps; and when admission would exceed the ceiling the caller
sleeps exactly `windowSeconds − (now − oldestTimestamp) + 0.1`, re-purges
expired entries, and only then appends its timestamp. -/
theorem c4_rate_limiter_window_safety (maxRequests : ℕ) (windowSeconds : ℚ)
    (hmax : 1 ≤ maxRequests) (hw : 0 < windowSeconds) :
    (∀ (t0 : ℚ) (deltas : List ℚ), (∀ d ∈ deltas, 0 ≤ d) →
      ∀ t, windowCount windowSeconds
          (runLimiter maxRequests windowSeconds [] t0 deltas).2.2 t ≤ maxRequests) ∧
    (∀ (requests : List ℚ) (now oldest : ℚ) (rest : List ℚ),
      purgeExpired windowSeconds now requests = oldest :: rest →
      maxRequests ≤ (oldest :: rest).length →
      waitIfNeeded maxRequests windowSeconds requests now
        = (purgeExpired windowSeconds (now + (windowSeconds - (now - oldest) + 1/10))
              (oldest :: rest)
            ++ [now + (windowSeconds - (now - oldest) + 1/10)],
          now + (windowSeconds - (now - oldest) + 1/10))) := by
  constructor
  · intro t0 deltas hd t
    have := runLimiter_window_safe maxRequests windowSeconds hmax hw deltas [] [] t0
      hd (by intro s hs; cases hs) (by intro s hs; cases hs)
      (by simp)
      (by intro u; simp [windowCount])
      t
    simpa using this
  · intro requests now oldest rest hpurge hlim
    have holdest : ¬ (oldest < now - windowSeconds) := by
      have := dropWhile_head_false (fun t => decide (t < now - windowSeconds)) hpurge
      simpa using this
    have hsleep : 0 < windowSeconds - (now - oldest) + 1/10 := by
      have : now - windowSeconds ≤ oldest := not_lt.mp holdest
      linarith
    unfold waitIfNeeded
    rw [hpurge, if_pos hlim]
    dsimp only
    rw [if_pos hsleep]

/-- Witness for C4: three back-to-back calls with `maxRequests = 2`,
`windowSeconds = 10` — no window of length 10 holds more than 2 admissions —
and the concrete sleep equation for a full deque `[0, 0]` at time 1. -/
theorem c4_witness :
    windowCount 10 (runLimiter 2 10 [] 0 [0, 0, 0]).2.2 5 ≤ 2 ∧
    waitIfNeeded 2 10 [0, 0] 1
      = (purgeExpired 10 (1 + (10 - (1 - 0) + 1/10)) [0, 0]
          ++ [1 + (10 - (1 - 0) + 1/10)], 1 + (10 - (1 - 0) + 1/10)) :=
  ⟨(c4_rate_limiter_window_safety 2 10 (by norm_num) (by norm_num)).1 0 [0, 0, 0]
      (by decide) 5,
    (c4_rate_limiter_window_safety 2 10 (by norm_num) (by norm_num)).2 [0, 0] 1 0 [0]
      (by decide) (by decide)⟩
